import Mathlib

/-!
# Verification of the ftdc-tools FTDC decoder and client-performance rollup

This file gives a shallow embedding of the two FTDC chunk decoders of the
repository (`src/ftdc_tools/decode.py` and `ftdc_tools/ftdc_decoder.py`) and of
the client-performance rollup (`src/ftdc_tools/rollups/client_perf.py`), and
proves properties of the embedded definitions.

Modelling conventions:
* Python's unbounded integers are `Int`/`Nat`; the explicit signed-64
  reinterpretation of the varint readers is modelled with an explicit
  subtraction of `2^64`, exactly as the source performs it.
* Python `float` values in the rollup are modelled as rationals (`ℚ`); the
  counterexamples below use values at which Python's binary floating point
  arithmetic is exact, so the divergences they exhibit are divergences of the
  source, not artifacts of the idealisation.
* Ordered dictionaries (`OrderedDict` / `dict` / the decoder's `Chunk`) are
  modelled as ordered association-lists (`TFields`): assignment of a present
  key updates in place, assignment of an absent key appends at the end.
* `datetime` leaves are modelled by their integer millisecond value, `bool`
  leaves by 0/1, matching how the decoders use them arithmetically.
* Byte sources are `List Nat` of byte values; `io.BytesIO.read(1)` at
  end-of-stream returns the empty bytestring, which `int.from_bytes` turns
  into 0 — the embedding of `_decode_varint` reproduces this.
-/

/- Ordered field trees: the shape shared by BSON-like nested ordered
mappings throughout the repository.  `TEntry` is one value (a leaf or a
nested document), `TFields` an ordered association list of named entries. -/
mutual
inductive TEntry (α : Type) where
  | leaf (a : α)
  | sub (d : TFields α)
  deriving Repr

inductive TFields (α : Type) where
  | nil
  | cons (k : String) (e : TEntry α) (rest : TFields α)
  deriving Repr
end

namespace TFields

/-- Concatenation of two ordered field lists. -/
def append {α : Type} : TFields α → TFields α → TFields α
  | .nil, ys => ys
  | .cons k e rest, ys => .cons k e (append rest ys)

instance {α : Type} : Append (TFields α) := ⟨TFields.append⟩

/-- Emptiness test. -/
def isNil {α : Type} : TFields α → Bool
  | .nil => true
  | .cons _ _ _ => false

/-- The list of top-level keys. -/
def keys {α : Type} : TFields α → List String
  | .nil => []
  | .cons k _ rest => k :: keys rest

/-- Association lookup of a top-level key (first occurrence). -/
def find? {α : Type} : TFields α → String → Option (TEntry α)
  | .nil, _ => none
  | .cons k e rest, k' => if k = k' then some e else find? rest k'

/-- Ordered-dict assignment: update the first occurrence in place, or append
a fresh key at the end, as Python dict assignment does. -/
def set {α : Type} : TFields α → String → TEntry α → TFields α
  | .nil, k', e' => .cons k' e' .nil
  | .cons k e rest, k', e' =>
      if k = k' then .cons k e' rest else .cons k e (set rest k' e')

/-- Pre-order traversal of the leaves, with an explicit key-path prefix:
the pure functional reading of both `_get_paths_and_vals` (decode.py) and
`extract_keys` (ftdc_decoder.py). -/
def flatten {α : Type} : TFields α → List String → List (List String × α)
  | .nil, _ => []
  | .cons k (.leaf a) rest, kp => (kp ++ [k], a) :: flatten rest kp
  | .cons k (.sub s) rest, kp => flatten s (kp ++ [k]) ++ flatten rest kp

mutual
/- `Bool`-valued test that each level of the tree has no duplicate keys
(true of any tree obtained by parsing a BSON document into a dict). -/
def noDupKeys {α : Type} : TFields α → Bool
  | .nil => true
  | .cons k e rest =>
      !(keys rest).contains k && entryNoDup e && noDupKeys rest

/- Helper of `noDupKeys` for one entry. -/
def entryNoDup {α : Type} : TEntry α → Bool
  | .leaf _ => true
  | .sub d => noDupKeys d
end

end TFields

namespace FTDCDecode

/-! ## Embedding of `src/ftdc_tools/decode.py` -/

/-- The leaf values a pymongo-parsed reference document can hold, as
`_get_constructors_for_val` distinguishes them: `bson.int64.Int64`,
`datetime` (ms), `bool`, and the two numeric types pymongo returns as plain
`int` / `float`, which that function rejects. -/
inductive BVal where
  | vint64 (v : Int)
  | vint32 (v : Int)
  | vdouble (q : ℚ)
  | vdate (ms : Int)
  | vbool (b : Bool)
  deriving Repr, DecidableEq

/-- The three metric kinds `_get_constructors_for_val` accepts; the kind
determines the delta constructor applied before each addition. -/
inductive MKind where
  | kint
  | kdate
  | kbool
  deriving Repr, DecidableEq

/-- The delta constructor of `_get_constructors_for_val`: identity for
`Int64` deltas, a millisecond `timedelta` (numerically the identity) for
datetimes, and Python's `bool()` for bool metrics — `bool(d)` is 1 for any
nonzero `d`. -/
def coerceDelta : MKind → Int → Int
  | .kbool, d => if d = 0 then 0 else 1
  | _, d => d

/-- Errors `_iter_chunk` and its helpers can raise. -/
inductive DErr where
  | unknownType
  | schemaMismatch
  | trailingBytes
  | indexError
  | typeError
  deriving Repr, DecidableEq

/-- Source `_get_constructors_for_val`: `datetime` / `Int64` / `bool` leaves are
accepted (with their kind); any other value — in particular the plain `int`
pymongo produces for BSON int32 and the `float` it produces for BSON double —
raises `ValueError`. -/
def getConstructorsForVal : BVal → Except DErr (Int × MKind)
  | .vdate ms => .ok (ms, .kdate)
  | .vint64 v => .ok (v, .kint)
  | .vbool b => .ok ((if b then 1 else 0), .kbool)
  | .vint32 _ => .error .unknownType
  | .vdouble _ => .error .unknownType

/-- One metric column of a chunk (`MetricChunk` without its value list:
key path, translated reference value, kind). -/
structure Metric where
  keyPath : List String
  refVal : Int
  kind : MKind
  deriving Repr, DecidableEq

/-- The loop body of `_get_metrics_from_ref_doc`: one `Metric` per leaf,
in order, failing at the first unsupported leaf value. -/
def metricsOfLeaves : List (List String × BVal) → Except DErr (List Metric)
  | [] => .ok []
  | pv :: rest =>
      match getConstructorsForVal pv.2 with
      | .error e => .error e
      | .ok tc =>
          match metricsOfLeaves rest with
          | .error e => .error e
          | .ok ms => .ok (Metric.mk pv.1 tc.1 tc.2 :: ms)

/-- Source `_get_metrics_from_ref_doc`: walk the reference document's leaves in
order and build one `Metric` per leaf, failing on the first unsupported
leaf value. -/
def getMetricsFromRefDoc (refDoc : TFields BVal) : Except DErr (List Metric) :=
  metricsOfLeaves (refDoc.flatten [])

/-- The loop body of `_decode_varint`: accumulate 7 bits per byte,
little-endian; a byte with the high bit clear terminates.  An exhausted
stream makes `read(1)` return `b""`, which `int.from_bytes` turns into 0 —
a terminating byte — so exhaustion terminates with the bits read so far. -/
def decodeVarintAux : List Nat → Nat → Nat → Nat × List Nat
  | [], res, _ => (res, [])
  | b :: rest, res, shift =>
      let res' := res ||| ((b &&& 0x7F) <<< shift)
      if b &&& 0x80 = 0 then (res', rest)
      else decodeVarintAux rest res' (shift + 7)

/-- The final signed-64 reinterpretation of `_decode_varint` and `unpack`:
an accumulator above `2^63 - 1` has `2^64` subtracted once. -/
def signed64 (res : Nat) : Int :=
  if res > 0x7FFFFFFFFFFFFFFF then (res : Int) - 0x10000000000000000 else (res : Int)

/-- Source `_decode_varint` over a byte cursor: returns the decoded signed value
and the rest of the cursor.  It cannot fail: cursor exhaustion behaves as a
zero terminator byte. -/
def decodeVarint (bs : List Nat) : Int × List Nat :=
  let ra := decodeVarintAux bs 0 0
  (signed64 ra.1, ra.2)

/-- One iteration of the delta loop of `_iter_chunk`: consume a pending
zero if any, else read a varint (and, on a zero delta, a run length that
counts the subsequent zeros).  The pending-zero counter is a signed Python
int: a negative run length keeps the counter nonzero forever. -/
def fillOne (zc : Int) (bs : List Nat) : Int × Int × List Nat :=
  if zc ≠ 0 then (0, zc - 1, bs)
  else
    let db := decodeVarint bs
    if db.1 = 0 then
      let rb := decodeVarint db.2
      (0, rb.1, rb.2)
    else (db.1, zc, db.2)

/-- The inner loop of `_iter_chunk` for one metric: produce the
`delta_count` running values appended after the reference value. -/
def fillMetric (kind : MKind) : Nat → Int → Int → List Nat → List Int × Int × List Nat
  | 0, _, zc, bs => ([], zc, bs)
  | n + 1, prev, zc, bs =>
      let d := fillOne zc bs
      let cur := prev + coerceDelta kind d.1
      let r := fillMetric kind n cur d.2.1 d.2.2
      (cur :: r.1, r.2.1, r.2.2)

/-- The outer loop of `_iter_chunk`: fill every metric column in order,
threading the single `zero_count` and the byte cursor across columns. -/
def fillMetrics : List Metric → Nat → Int → List Nat →
    List (Metric × List Int) × Int × List Nat
  | [], _, zc, bs => ([], zc, bs)
  | m :: ms, dc, zc, bs =>
      let f := fillMetric m.kind dc m.refVal zc bs
      let r := fillMetrics ms dc f.2.1 f.2.2
      ((m, m.refVal :: f.1) :: r.1, r.2.1, r.2.2)

/-- Source `cur[key] = …` navigation of the document-building loop of
`_iter_chunk`: walk the key path, entering existing subdocuments and
appending missing ones; assign the value at the last key.  Reaching a
non-document value mid-path is a Python `TypeError` (`none`). -/
def setPath : TFields Int → List String → Int → Option (TFields Int)
  | _, [], _ => none
  | d, [k], v => some (d.set k (.leaf v))
  | d, k :: k2 :: p, v =>
      match d.find? k with
      | none => (setPath .nil (k2 :: p) v).map fun s => d ++ .cons k (.sub s) .nil
      | some (.sub s) => (setPath s (k2 :: p) v).map fun s' => d.set k (.sub s')
      | some (.leaf _) => none

/-- Sequential insertion of (key path, value) pairs into a document under
construction — the body of the per-sample loop of `_iter_chunk`. -/
def insertAll : TFields Int → List (List String × Int) → Option (TFields Int)
  | d, [] => some d
  | d, pv :: l =>
      match setPath d pv.1 pv.2 with
      | some d' => insertAll d' l
      | none => none

/-- The document built for sample index `i`: every metric contributes its
key path and its `values[i]`. -/
def buildDoc (cols : List (Metric × List Int)) (i : Nat) : Option (TFields Int) :=
  insertAll .nil (cols.map fun c => (c.1.keyPath, c.2.getD i 0))

/-- Build one document per sample index, failing with a `TypeError` if a
path assignment hits a non-document value. -/
def buildAll (cols : List (Metric × List Int)) : List Nat → Except DErr (List (TFields Int))
  | [] => .ok []
  | i :: is =>
      match buildDoc cols i with
      | some d => (buildAll cols is).map fun ds => d :: ds
      | none => .error .typeError

/-- Source `_iter_chunk` from the point where the reference document, the
`metric_count` and `delta_count` header words, and the remaining payload
bytes are in hand (the zlib inflation and the BSON parse of the reference
document are the external collaterals the spec leaves to libraries).
Mirrors the source order: metrics from the reference document, the
`metric_count` check, the delta fill, the trailing-bytes check, then one
yielded document per index of `metrics[0].values` — an empty metrics list
makes `metrics[0]` an `IndexError`. -/
def iterChunk (refDoc : TFields BVal) (metricCount deltaCount : Nat) (bs : List Nat) :
    Except DErr (List (TFields Int)) :=
  match getMetricsFromRefDoc refDoc with
  | .error e => .error e
  | .ok ms =>
      if metricCount ≠ ms.length then .error .schemaMismatch
      else
        let f := fillMetrics ms deltaCount 0 bs
        if f.2.2 ≠ [] then .error .trailingBytes
        else
          match f.1 with
          | [] => .error .indexError
          | c0 :: _ => buildAll f.1 (List.range c0.2.length)

/-- Claim-side zero-run expansion: the flat sequence of the first `n`
expanded deltas of a payload, produced with the same single pending-zero
counter the source threads across column boundaries.  Returns the deltas
together with the final counter and cursor. -/
def expandStream : Nat → Int → List Nat → List Int × Int × List Nat
  | 0, zc, bs => ([], zc, bs)
  | n + 1, zc, bs =>
      let d := fillOne zc bs
      let r := expandStream n d.2.1 d.2.2
      (d.1 :: r.1, r.2.1, r.2.2)

/-- Running values of one column from its (already expanded) deltas:
each delta is passed through the column's delta constructor and added. -/
def scanVals (kind : MKind) : Int → List Int → List Int
  | _, [] => []
  | prev, d :: ds =>
      let cur := prev + coerceDelta kind d
      cur :: scanVals kind cur ds

/-- Claim-side columns of values: metric `c` takes deltas
`c*D .. c*D + D - 1` of the expanded matrix, scanned from its reference
value (the reference value itself first). -/
def chunkValsCols : List Metric → Nat → List Int → List (Metric × List Int)
  | [], _, _ => []
  | m :: ms, dc, ds =>
      (m, m.refVal :: scanVals m.kind m.refVal (ds.take dc)) ::
        chunkValsCols ms dc (ds.drop dc)

/-- Claim-side columns of deltas: the expanded `(delta_count × M)` matrix
chopped into one row of `delta_count` deltas per metric, in column order. -/
def chunkDeltas : List Metric → Nat → List Int → List (Metric × List Int)
  | [], _, _ => []
  | m :: ms, dc, ds => (m, ds.take dc) :: chunkDeltas ms dc (ds.drop dc)

/-- The nested single-path document `setPath` builds from scratch. -/
def chain : List String → Int → TFields Int
  | [], _ => .nil
  | [k], v => .cons k (.leaf v) .nil
  | k :: k2 :: p, v => .cons k (.sub (chain (k2 :: p) v)) .nil

/-- The document shape the per-sample rebuild produces: the reference
document's shape with its leaves replaced, in pre-order, by the values of
the given list, and subtrees containing no leaf omitted (no key path ever
leads into them).  Returns the unconsumed values. -/
def prunedFill : TFields BVal → List Int → TFields Int × List Int
  | .nil, vs => (.nil, vs)
  | .cons k (.leaf _) rest, [] =>
      (.cons k (.leaf 0) (prunedFill rest []).1, (prunedFill rest []).2)
  | .cons k (.leaf _) rest, v :: vs' =>
      (.cons k (.leaf v) (prunedFill rest vs').1, (prunedFill rest vs').2)
  | .cons k (.sub s) rest, vs =>
      if (prunedFill s vs).1.isNil then prunedFill rest (prunedFill s vs).2
      else (.cons k (.sub (prunedFill s vs).1)
              (prunedFill rest (prunedFill s vs).2).1,
            (prunedFill rest (prunedFill s vs).2).2)

/-- The state-passing reading of `_get_paths_and_vals` with its shared,
module-level mutable `key_path` accumulator: each key is appended before
the entry is visited and popped afterwards; the function returns the output
list together with the final accumulator state. -/
def gpvSt : TFields BVal → List String → List (List String × BVal) × List String
  | .nil, kp => ([], kp)
  | .cons k e rest, kp =>
      let kp1 := kp ++ [k]
      match e with
      | .sub s =>
          let r1 := gpvSt s kp1
          let r2 := gpvSt rest r1.2.dropLast
          (r1.1 ++ r2.1, r2.2)
      | .leaf v =>
          let r2 := gpvSt rest kp1.dropLast
          ((kp1, v) :: r2.1, r2.2)

end FTDCDecode

namespace FTDCLegacy

/-! ## Embedding of `ftdc_tools/ftdc_decoder.py` -/

/- The typed BSON fields `_read_bson_doc` distinguishes by tag, with their
decoded payloads (string / bindata / objectid payloads are dropped in FTDC
mode, so they carry no data here); `BsonDoc` is one parsed document body. -/
mutual
inductive BsonV where
  | bDouble (q : ℚ)
  | bString
  | bSubdoc (d : BsonDoc)
  | bArray (d : BsonDoc)
  | bBindata
  | bObjectid
  | bBool (byte : Nat)
  | bDatetime (ms : Nat)
  | bInt32 (v : Int)
  | bTimestamp (t i : Nat)
  | bInt64 (v : Int)
  | bMinKey
  | bMaxKey
  | bUnknown (tag : Nat)
  deriving Repr

inductive BsonDoc where
  | nil
  | cons (k : String) (v : BsonV) (rest : BsonDoc)
  deriving Repr
end

/-- Truncation of a rational toward zero, as Python's `int(float)` does. -/
def qtrunc (q : ℚ) : Int := q.num.tdiv q.den

mutual
/- `_read_bson_doc` with `ftdc=True`, at the level of already-framed typed
fields (the byte-level length/name framing is the external BSON wire layer):
doubles are truncated to int, bools keep their raw byte, datetimes their
unsigned millisecond value, int32/int64 their signed value; subdocuments,
arrays and timestamps recurse into nested documents; string, bindata,
objectid, minkey and maxkey values become `None` and are dropped; an unknown
tag raises. -/
def readFtdc : BsonDoc → Option (TFields Int)
  | .nil => some .nil
  | .cons k v rest =>
      match readFtdcVal v with
      | none => none
      | some ov =>
          match readFtdc rest with
          | none => none
          | some r =>
              match ov with
              | none => some r
              | some e => some (.cons k e r)

/- The per-field value translation of `_read_bson_doc` in FTDC mode.
Outer `none` is the unknown-tag exception; inner `none` is a dropped
(`None`-valued) field. -/
def readFtdcVal : BsonV → Option (Option (TEntry Int))
  | .bDouble q => some (some (.leaf (qtrunc q)))
  | .bString => some none
  | .bSubdoc d => (readFtdc d).map fun r => some (.sub r)
  | .bArray d => (readFtdc d).map fun r => some (.sub r)
  | .bBindata => some none
  | .bObjectid => some none
  | .bBool byte => some (some (.leaf (byte : Int)))
  | .bDatetime ms => some (some (.leaf (ms : Int)))
  | .bInt32 v => some (some (.leaf v))
  | .bTimestamp t i =>
      some (some (.sub (.cons "t" (.leaf (t : Int)) (.cons "i" (.leaf (i : Int)) .nil))))
  | .bInt64 v => some (some (.leaf v))
  | .bMinKey => some none
  | .bMaxKey => some none
  | .bUnknown _ => none
end

/-- Source `extract_keys` of `_decode_chunk`: pre-order walk of the reference
document collecting `(key path, value)` pairs in insertion order. -/
def extractKeys : TFields Int → List String → List (List String × Int)
  | .nil, _ => []
  | .cons k (.leaf v) rest, n => (n ++ [k], v) :: extractKeys rest n
  | .cons k (.sub s) rest, n => extractKeys s (n ++ [k]) ++ extractKeys rest n

/-- Errors `_decode_chunk` can raise after work has begun. -/
inductive LErr where
  | badChunk
  | indexError
  deriving Repr, DecidableEq

/-- The loop of `unpack`: read `data[at]`, accumulate 7 bits, stop on a clear
high bit; indexing past the end of `data` is an `IndexError` (`none`).  The
first argument is the unread suffix `data.drop at`. -/
def unpackGo : List Nat → Nat → Nat → Nat → Option (Int × Nat)
  | [], _, _, _ => none
  | b :: rest, at_, res, shift =>
      let res' := res ||| ((b &&& 0x7F) <<< shift)
      if b &&& 0x80 = 0 then some (FTDCDecode.signed64 res', at_ + 1)
      else unpackGo rest (at_ + 1) res' (shift + 7)

/-- Source `unpack(data, at)` of `_decode_chunk`: decode one varint starting at
index `at`, returning the value and the next index, or `none` on an
out-of-range read. -/
def unpack (data : List Nat) (at_ : Nat) : Option (Int × Nat) :=
  unpackGo (data.drop at_) at_ 0 0

/-- One delta of the unpack loop of `_decode_chunk`: consume a pending zero
or read a varint (reading the run length after a zero delta). -/
def lFillOne (data : List Nat) (nz : Int) (at_ : Nat) : Option (Int × Int × Nat) :=
  if nz ≠ 0 then some (0, nz - 1, at_)
  else
    match unpack data at_ with
    | none => none
    | some (d, at1) =>
        if d = 0 then
          match unpack data at1 with
          | none => none
          | some (r, at2) => some (0, r, at2)
        else some (d, nz, at1)

/-- The inner loop of `_decode_chunk` for one metric key: the `ndeltas`
successive running values. -/
def lFillMetric (data : List Nat) : Nat → Int → Int → Nat → Option (List Int × Int × Nat)
  | 0, _, nz, at_ => some ([], nz, at_)
  | n + 1, v, nz, at_ =>
      match lFillOne data nz at_ with
      | none => none
      | some (d, nz1, at1) =>
          let v1 := v + d
          match lFillMetric data n v1 nz1 at1 with
          | none => none
          | some (vs, nz2, at2) => some (v1 :: vs, nz2, at2)

/-- The outer loop of `_decode_chunk`: fill a value column for every metric
key in order, threading the shared `nzeroes` counter and cursor. -/
def lFillAll (data : List Nat) :
    List (List String × Int) → Nat → Int → Nat →
    Option (List (List String × List Int) × Int × Nat)
  | [], _, nz, at_ => some ([], nz, at_)
  | (p, v) :: ms, nd, nz, at_ =>
      match lFillMetric data nd v nz at_ with
      | none => none
      | some (vs, nz1, at1) =>
          match lFillAll data ms nd nz1 at1 with
          | none => none
          | some (cols, nz2, at2) => some ((p, vs) :: cols, nz2, at2)

/-- Source `_decode_chunk` from the point where the reference document has been
read and flattened to `metrics_init`, the `nmetrics`/`ndeltas` header words
read, and `data` restricted to the delta bytes (so the cursor starts at 0).
Returns the samples the generator yields before finishing or failing,
paired with the error if any: an empty `metrics_init` returns nothing;
a metric-count mismatch raises before any yield; `metrics_init` itself is
yielded before the deltas are unpacked, so an out-of-range read during
unpacking leaves exactly that one sample yielded.  There is no
trailing-bytes check: leftover bytes after the last delta are ignored. -/
def decodeChunkF (metricsInit : List (List String × Int)) (nmetrics ndeltas : Nat)
    (data : List Nat) : List (List (List String × Int)) × Option LErr :=
  if metricsInit.isEmpty then ([], none)
  else if nmetrics ≠ metricsInit.length then ([], some .badChunk)
  else
    match lFillAll data metricsInit ndeltas 0 0 with
    | none => ([metricsInit], some .indexError)
    | some (cols, _, _) =>
        (metricsInit ::
          (List.range ndeltas).map (fun i => cols.map fun c => (c.1, c.2.getD i 0)),
         none)

end FTDCLegacy

namespace ClientPerf

/-! ## Embedding of `src/ftdc_tools/rollups/client_perf.py`

Python floats are modelled as rationals.  A record is modelled by the
fields `_process` reads; `ts` by its `_ts_to_milliseconds` value. -/

/-- The `timers` subdocument: `dur` and `duration` may each be absent. -/
structure Timers where
  dur : Option ℚ
  duration : Option ℚ
  total : ℚ
  deriving Repr, DecidableEq

/-- The `counters` subdocument. -/
structure Counters where
  n : ℚ
  ops : ℚ
  size : ℚ
  errors : ℚ
  deriving Repr, DecidableEq

/-- One decoded FTDC record as the rollup reads it.  `tsMs` is
`_ts_to_milliseconds(record["ts"])`. -/
structure Sample where
  tsMs : ℚ
  counters : Counters
  timers : Timers
  workers : ℚ
  deriving Repr, DecidableEq

/-- Source `float(record["timers"]["dur"])` with the `duration` fallback:
`dur` if the key is present, else `duration`; `none` is the `KeyError`. -/
def durationOf (r : Sample) : Option ℚ :=
  match r.timers.dur with
  | some d => some d
  | none => r.timers.duration

/-- The error `_process` raises (a `ValueError` naming the missing key). -/
inductive RErr where
  | missingField (key : String)
  deriving Repr, DecidableEq

/-- The accumulator fields of `ClientPerformanceStatistics`.  `firstRecord`
keeps the retained record together with the `start_ts` stamped onto its
copy; `lastRecord` only ever has its `ts` read, so the copy is immaterial
for it. -/
structure RState where
  operationsTotal : ℚ
  documentsTotal : ℚ
  sizeTotal : ℚ
  errorsTotal : ℚ
  durationTotal : ℚ
  extractedDurations : List ℚ
  wallTimeTotal : ℚ
  timersTotal : ℚ
  gaugesWorkersMin : ℚ
  gaugesWorkersMax : ℚ
  firstRecord : Option (Sample × ℚ)
  lastRecord : Option Sample
  minDuration : ℚ
  maxDuration : ℚ
  deriving Repr, DecidableEq

/-- The `__init__` state. -/
def initState : RState :=
  { operationsTotal := 0, documentsTotal := 0, sizeTotal := 0, errorsTotal := 0
    durationTotal := 0, extractedDurations := [], wallTimeTotal := 0
    timersTotal := 0, gaugesWorkersMin := 0, gaugesWorkersMax := 0
    firstRecord := none, lastRecord := none, minDuration := 0, maxDuration := 0 }

/-- The body of the `for record in self._ftdc_data` loop for one record,
given the loop-local `previous_duration`: `none` is the `KeyError` on a
record with neither `timers.dur` nor `timers.duration` (raised before any
mutation for that record). -/
def stepRecord (st : RState) (prev : ℚ) (r : Sample) : Option (RState × ℚ) :=
  match durationOf r with
  | none => none
  | some duration =>
      let extracted := duration - prev
      let minD := if st.firstRecord.isNone then extracted else min st.minDuration extracted
      let maxD := if st.firstRecord.isNone then extracted else max st.maxDuration extracted
      let startTs := r.tsMs - extracted / 1000000
      let firstR :=
        match st.firstRecord with
        | none => some (r, startTs)
        | some f => if f.2 > startTs then some (r, startTs) else some f
      some ({ st with
                minDuration := minD
                maxDuration := maxD
                firstRecord := firstR
                lastRecord := some r
                gaugesWorkersMin := min st.gaugesWorkersMin r.workers
                gaugesWorkersMax := min st.gaugesWorkersMax r.workers
                extractedDurations := st.extractedDurations ++ [extracted] },
            duration)

/-- The whole record loop of `_process`, threading `previous_duration`:
returns the state as left by the loop (mutations of earlier records are
kept) and the error, if one was raised. -/
def runLoop : RState → ℚ → List Sample → (RState × ℚ) × Option RErr
  | st, prev, [] => ((st, prev), none)
  | st, prev, r :: rest =>
      match stepRecord st prev r with
      | none => ((st, prev), some (.missingField "duration"))
      | some (st', prev') => runLoop st' prev' rest

/-- The code after the loop of `_process`: return untouched when nothing
was consumed, otherwise read every total from the last record and compute
`wall_time_total` from the last record's `ts` and the first record's
`start_ts`. -/
def postProcess (st : RState) : RState × Option RErr :=
  match st.firstRecord, st.lastRecord with
  | some f, some l =>
      match durationOf l with
      | none => (st, some (.missingField "duration"))
      | some dtot =>
          (({ st with
                operationsTotal := l.counters.ops
                documentsTotal := l.counters.n
                sizeTotal := l.counters.size
                errorsTotal := l.counters.errors
                timersTotal := l.timers.total
                durationTotal := dtot
                wallTimeTotal := (l.tsMs - f.2) / 1000 }), none)
  | _, _ => (st, none)

/-- Source `_process` over a record sequence: run the loop, then the post-loop
totals when no error was raised.  The pair is the object state afterwards
and the surfaced error, if any. -/
def process (samples : List Sample) : RState × Option RErr :=
  match runLoop initState 0 samples with
  | ((st, _), some e) => (st, some e)
  | ((st, _), none) => postProcess st

/-- One named statistic. -/
structure Statistic where
  name : String
  value : ℚ
  version : Nat
  userSubmitted : Bool
  deriving Repr, DecidableEq

/-- Insertion into a sorted list, for the sort `mquantiles` performs. -/
def insertSorted (x : ℚ) : List ℚ → List ℚ
  | [] => [x]
  | y :: ys => if x ≤ y then x :: y :: ys else y :: insertSorted x ys

/-- Insertion sort of rationals. -/
def sortQ : List ℚ → List ℚ
  | [] => []
  | x :: xs => insertSorted x (sortQ xs)

/-- Clamp `x` into `[lo, hi]` the way `numpy.clip` does (upper bound
applied last). -/
def clipQ (x lo hi : ℚ) : ℚ := min (max x lo) hi

/-- Modelled from the spec: the external `scipy.stats.mstats.mquantiles`
quantile estimator (plotting positions with parameters
`alphap = betap = 1/3`), which the spec treats as an external numeric
library and specifies only by contract — one estimate per requested
probability, by linear interpolation between order statistics of the sorted
data.  Only its arity (one output per probability) matters to the theorems
below. -/
def mquantilesM (data : List ℚ) (probs : List ℚ) (alphap betap : ℚ) : List ℚ :=
  let xs := sortQ data
  let n : ℚ := (data.length : ℚ)
  probs.map fun p =>
    let m := alphap + p * (1 - alphap - betap)
    let aleph := n * p + m
    let k : Int := ⌊clipQ aleph 1 (n - 1)⌋
    let gamma := clipQ (aleph - (k : ℚ)) 0 1
    (1 - gamma) * xs.getD (k - 1).toNat 0 + gamma * xs.getD k.toNat 0

/-- Source `average_latency` (version 3). -/
def averageLatency (st : RState) : Statistic :=
  ⟨"AverageLatency",
    if st.operationsTotal > 0 then st.durationTotal / st.operationsTotal else 0, 3, false⟩

/-- Source `average_size` (version 3). -/
def averageSize (st : RState) : Statistic :=
  ⟨"AverageSize",
    if st.operationsTotal > 0 then st.sizeTotal / st.operationsTotal else 0, 3, false⟩

/-- Source `operation_throughput` (version 5 in the source). -/
def operationThroughput (st : RState) : Statistic :=
  ⟨"OperationThroughput",
    if st.wallTimeTotal > 0 then st.operationsTotal / st.wallTimeTotal
    else st.operationsTotal, 5, false⟩

/-- Source `document_throughput` (version 1 in the source). -/
def documentThroughput (st : RState) : Statistic :=
  ⟨"DocumentThroughput",
    if st.wallTimeTotal > 0 then st.documentsTotal / st.wallTimeTotal
    else st.documentsTotal, 1, false⟩

/-- Source `error_rate` (version 5 in the source). -/
def errorRate (st : RState) : Statistic :=
  ⟨"ErrorRate",
    if st.wallTimeTotal > 0 then st.errorsTotal / st.wallTimeTotal
    else st.errorsTotal, 5, false⟩

/-- Source `size_throughput` (version 5 in the source). -/
def sizeThroughput (st : RState) : Statistic :=
  ⟨"SizeThroughput",
    if st.wallTimeTotal > 0 then st.sizeTotal / st.wallTimeTotal
    else st.sizeTotal, 5, false⟩

/-- Source `workers_min` (version 3). -/
def workersMin (st : RState) : Statistic :=
  ⟨"WorkersMin", st.gaugesWorkersMin, 3, false⟩

/-- Source `workers_max` (version 3) — its value field is `_gauges_workers_max`,
which `_process` also updates with `min(...)`. -/
def workersMax (st : RState) : Statistic :=
  ⟨"WorkersMax", st.gaugesWorkersMax, 3, false⟩

/-- Source `latency_min` (version 4). -/
def latencyMin (st : RState) : Statistic :=
  ⟨"LatencyMin",
    if st.extractedDurations.length > 0 then st.minDuration else 0, 4, false⟩

/-- Source `latency_max` (version 4). -/
def latencyMax (st : RState) : Statistic :=
  ⟨"LatencyMax",
    if st.extractedDurations.length > 0 then st.maxDuration else 0, 4, false⟩

/-- Source `duration_total` (version 5 in the source): `wall_time_total` scaled to
nanoseconds, kept for consistency with legacy cedar. -/
def durationTotalStat (st : RState) : Statistic :=
  ⟨"DurationTotal", st.wallTimeTotal * 1000000000, 5, false⟩

/-- Source `errors_total` (version 3). -/
def errorsTotalStat (st : RState) : Statistic :=
  ⟨"ErrorsTotal", st.errorsTotal, 3, false⟩

/-- Source `operations_total` (version 3). -/
def operationsTotalStat (st : RState) : Statistic :=
  ⟨"OperationsTotal", st.operationsTotal, 3, false⟩

/-- Source `documents_total` (version 0). -/
def documentsTotalStat (st : RState) : Statistic :=
  ⟨"DocumentsTotal", st.documentsTotal, 0, false⟩

/-- Source `size_total` (version 3). -/
def sizeTotalStat (st : RState) : Statistic :=
  ⟨"SizeTotal", st.sizeTotal, 3, false⟩

/-- Source `overhead_total` (version 1). -/
def overheadTotal (st : RState) : Statistic :=
  ⟨"OverheadTotal", st.timersTotal - st.durationTotal, 1, false⟩

/-- The `latency_quantiles` names, in order. -/
def quantileNames : List String :=
  ["Latency50thPercentile", "Latency80thPercentile", "Latency90thPercentile",
   "Latency95thPercentile", "Latency99thPercentile"]

/-- Source `latency_quantiles` (each at version 4): five zeros on an empty latency
vector, otherwise the `mquantiles` estimates at the five probabilities. -/
def latencyQuantiles (st : RState) : List Statistic :=
  let quantiles :=
    if st.extractedDurations.length > 0 then
      mquantilesM st.extractedDurations
        [1/2, 4/5, 9/10, 19/20, 99/100] (1/3) (1/3)
    else [0, 0, 0, 0, 0]
  (quantileNames.zip quantiles).map fun nv => ⟨nv.1, nv.2, 4, false⟩

/-- Source `all_statistics`: the fixed ordered statistic list. -/
def allStatistics (st : RState) : List Statistic :=
  [averageLatency st, averageSize st, operationThroughput st,
   documentThroughput st, errorRate st, sizeThroughput st,
   workersMin st, workersMax st, latencyMin st, latencyMax st,
   durationTotalStat st, errorsTotalStat st, operationsTotalStat st,
   documentsTotalStat st, sizeTotalStat st, overheadTotal st] ++
  latencyQuantiles st

end ClientPerf

namespace ClientPerf

/-! ### Claim-side definitions and concrete records for the rollup -/

/-- Claim-side description of the per-record `start_ts` values: record `k`
gets `ts_ms − (duration_k − duration_{k−1}) / 1e6`, threading the previous
duration exactly as the loop does. -/
def startTsList : ℚ → List Sample → List ℚ
  | _, [] => []
  | prev, r :: rest =>
      let d := (durationOf r).getD 0
      (r.tsMs - (d - prev) / 1000000) :: startTsList d rest

/-- Minimum of a rational list (0 on the empty list). -/
def minQ : List ℚ → ℚ
  | [] => 0
  | x :: xs => xs.foldl min x

/-- A concrete record whose single extracted duration is 2·10⁹ ns: its
`start_ts` is 2000 ms before its `ts`, values at which Python's float
arithmetic is exact. -/
def exWall : Sample := ⟨1000, ⟨1, 1, 0, 0⟩, ⟨some 2000000000, none, 5⟩, 1⟩

/-- A concrete well-formed record (has `timers.dur`). -/
def exGood : Sample := ⟨1000, ⟨1, 1, 0, 0⟩, ⟨some 100, none, 5⟩, 1⟩

/-- A concrete record whose `timers` has neither `dur` nor `duration`. -/
def exBad : Sample := ⟨2000, ⟨2, 2, 0, 0⟩, ⟨none, none, 5⟩, 1⟩

end ClientPerf

/-! ## Helper lemmas -/

namespace TFields

/-- Appending the empty field list on the right is the identity. -/
theorem append_nil {α : Type} (x : TFields α) : x ++ (.nil : TFields α) = x := by
  match x with
  | .nil => rfl
  | .cons k e rest =>
      show TFields.cons k e (rest ++ .nil) = TFields.cons k e rest
      rw [append_nil rest]

/-- Associativity of field-list concatenation. -/
theorem append_assoc {α : Type} (x y z : TFields α) :
    (x ++ y) ++ z = x ++ (y ++ z) := by
  match x with
  | .nil => rfl
  | .cons k e rest =>
      show TFields.cons k e ((rest ++ y) ++ z) = TFields.cons k e (rest ++ (y ++ z))
      rw [append_assoc rest y z]

/-- Keys of a concatenation. -/
theorem keys_append {α : Type} (x y : TFields α) :
    (x ++ y).keys = x.keys ++ y.keys := by
  match x with
  | .nil => rfl
  | .cons k e rest =>
      show k :: (rest ++ y).keys = k :: (rest.keys ++ y.keys)
      rw [keys_append rest y]

/-- Lookup of an absent key fails. -/
theorem find?_eq_none {α : Type} (x : TFields α) (k : String) (h : k ∉ x.keys) :
    x.find? k = none := by
  match x with
  | .nil => rfl
  | .cons k' e rest =>
      have hne : k' ≠ k := by
        intro he
        exact h (by simp [keys, he])
      show (if k' = k then some e else rest.find? k) = none
      rw [if_neg hne]
      exact find?_eq_none rest k (fun hm => h (by simp [keys, hm]))

/-- Assignment of an absent key appends it at the end. -/
theorem set_of_notMem {α : Type} (x : TFields α) (k : String) (e : TEntry α)
    (h : k ∉ x.keys) : x.set k e = x ++ .cons k e .nil := by
  match x with
  | .nil => rfl
  | .cons k' e' rest =>
      have hne : k' ≠ k := by
        intro he
        exact h (by simp [keys, he])
      show (if k' = k then _ else _) = _
      rw [if_neg hne]
      show TFields.cons k' e' (rest.set k e) = TFields.cons k' e' (rest ++ _)
      rw [set_of_notMem rest k e (fun hm => h (by simp [keys, hm]))]

/-- Lookup of the key appended at the end of a list that lacks it. -/
theorem find?_append_self {α : Type} (x : TFields α) (k : String) (e : TEntry α)
    (h : k ∉ x.keys) : (x ++ .cons k e .nil).find? k = some e := by
  match x with
  | .nil => simp [find?]
  | .cons k' e' rest =>
      have hne : k' ≠ k := by
        intro he
        exact h (by simp [keys, he])
      show (if k' = k then some e' else (rest ++ _).find? k) = some e
      rw [if_neg hne]
      exact find?_append_self rest k e (fun hm => h (by simp [keys, hm]))

/-- Reassignment of the key appended at the end of a list that lacks it. -/
theorem set_append_self {α : Type} (x : TFields α) (k : String) (e e' : TEntry α)
    (h : k ∉ x.keys) : (x ++ .cons k e .nil).set k e' = x ++ .cons k e' .nil := by
  match x with
  | .nil => simp [set]; rfl
  | .cons k'' e'' rest =>
      have hne : k'' ≠ k := by
        intro he
        exact h (by simp [keys, he])
      show (if k'' = k then _ else _) = _
      rw [if_neg hne]
      show TFields.cons k'' e'' ((rest ++ _).set k e') = TFields.cons k'' e'' (rest ++ _)
      rw [set_append_self rest k e e' (fun hm => h (by simp [keys, hm]))]

/-- Destructuring of the no-duplicate-keys invariant at a cons cell. -/
theorem noDup_parts {α : Type} {k : String} {e : TEntry α} {rest : TFields α}
    (h : TFields.noDupKeys (TFields.cons k e rest) = true) :
    k ∉ rest.keys ∧ TFields.entryNoDup e = true ∧ TFields.noDupKeys rest = true := by
  simp only [TFields.noDupKeys, Bool.and_eq_true, Bool.not_eq_true'] at h
  refine ⟨?_, h.1.2, h.2⟩
  intro hm
  have hc := h.1.1
  simp [hm] at hc

/-- Traversal with a prefix is the plain traversal with the prefix glued
onto every path. -/
theorem flatten_shift {α : Type} (d : TFields α) (kp : List String) :
    d.flatten kp = (d.flatten []).map (fun pv => (kp ++ pv.1, pv.2)) := by
  match d with
  | .nil => rfl
  | .cons k (.leaf a) rest =>
      have ih := flatten_shift rest kp
      simp [TFields.flatten, ih]
  | .cons k (.sub s) rest =>
      have ih1 := flatten_shift s (kp ++ [k])
      have ih1' := flatten_shift s [k]
      have ih2 := flatten_shift rest kp
      simp only [TFields.flatten, List.nil_append, ih1, ih1', ih2,
        List.map_append, List.map_map]
      congr 1
      apply List.map_congr_left
      intro pv _
      simp [List.append_assoc]

/-- Every path produced by the plain traversal is nonempty. -/
theorem flatten_path_ne_nil {α : Type} (d : TFields α) :
    ∀ pv ∈ d.flatten [], pv.1 ≠ ([] : List String) := by
  match d with
  | .nil => intro pv h; simp [TFields.flatten] at h
  | .cons k (.leaf a) rest =>
      intro pv h
      rcases (by simpa [TFields.flatten] using h :
          pv = ([k], a) ∨ pv ∈ rest.flatten []) with h1 | h2
      · rw [h1]; simp
      · exact flatten_path_ne_nil rest pv h2
  | .cons k (.sub s) rest =>
      intro pv h
      rcases (by simpa [TFields.flatten] using h :
          pv ∈ s.flatten [k] ∨ pv ∈ rest.flatten []) with h1 | h2
      · rw [flatten_shift s [k]] at h1
        rcases List.mem_map.mp h1 with ⟨pv', _, hpv⟩
        rw [← hpv]
        simp
      · exact flatten_path_ne_nil rest pv h2

end TFields

namespace FTDCDecode

/-- The state-passing traversal equals the pure pre-order traversal and
restores the shared accumulator exactly. -/
theorem gpvSt_spec (d : TFields BVal) (kp : List String) :
    gpvSt d kp = (d.flatten kp, kp) := by
  match d with
  | .nil => rfl
  | .cons k (.leaf v) rest =>
      have ih := gpvSt_spec rest kp
      simp [gpvSt, TFields.flatten, List.dropLast_concat, ih]
  | .cons k (.sub s) rest =>
      have ih1 := gpvSt_spec s (kp ++ [k])
      have ih2 := gpvSt_spec rest kp
      simp [gpvSt, TFields.flatten, List.dropLast_concat, ih1, ih2]

/-- Building a fresh nonempty key path from scratch produces the single
chain of nested one-field documents. -/
theorem setPath_nil_chain (p : List String) (v : Int) (hp : p ≠ []) :
    setPath .nil p v = some (chain p v) := by
  match p, hp with
  | [k], _ => rfl
  | k :: k2 :: p', _ =>
      have ih := setPath_nil_chain (k2 :: p') v (by simp)
      simp [setPath, TFields.find?, ih, chain]
      rfl

/-- Inserting a path starting with a key absent from the document creates
that key at the end, holding the freshly built chain. -/
theorem setPath_absent (D : TFields Int) (k : String) (p : List String) (v : Int)
    (hk : k ∉ D.keys) (hp : p ≠ []) :
    setPath D (k :: p) v =
      (setPath .nil p v).map (fun s => D ++ .cons k (.sub s) .nil) := by
  match p, hp with
  | k2 :: p', _ =>
      simp [setPath, TFields.find?_eq_none D k hk]

/-- Inserting a path starting with the key of the last entry (a
subdocument) updates that entry in place. -/
theorem setPath_into_last (D S : TFields Int) (k : String) (p : List String)
    (v : Int) (hk : k ∉ D.keys) (hp : p ≠ []) :
    setPath (D ++ .cons k (.sub S) .nil) (k :: p) v =
      (setPath S p v).map (fun s' => D ++ .cons k (.sub s') .nil) := by
  match p, hp with
  | k2 :: p', _ =>
      rw [setPath, TFields.find?_append_self D k _ hk]
      show Option.map
          (fun s' => (D ++ TFields.cons k (TEntry.sub S) TFields.nil).set k (TEntry.sub s'))
          (setPath S (k2 :: p') v) = _
      rcases hsp : setPath S (k2 :: p') v with _ | S1
      · rfl
      · simp [TFields.set_append_self D k _ _ hk]

/-- Sequential insertion splits over list concatenation. -/
theorem insertAll_append (D : TFields Int) (L1 L2 : List (List String × Int)) :
    insertAll D (L1 ++ L2) =
      match insertAll D L1 with
      | some D' => insertAll D' L2
      | none => none := by
  induction L1 generalizing D with
  | nil => rfl
  | cons pv L1 ih =>
      rcases hsp : setPath D pv.1 pv.2 with _ | D'
      · simp [insertAll, hsp]
      · simp [insertAll, hsp, ih]

/-- Inserting a batch of paths that all start with the same key `k` — the
key of the last entry of the document, a subdocument — performs all the
insertions inside that subdocument. -/
theorem insertAll_prepend (L : List (List String × Int)) (k : String)
    (S D : TFields Int) (hk : k ∉ D.keys) (hL : ∀ pv ∈ L, pv.1 ≠ []) :
    insertAll (D ++ .cons k (.sub S) .nil) (L.map fun pv => (k :: pv.1, pv.2)) =
      (insertAll S L).map (fun S' => D ++ .cons k (.sub S') .nil) := by
  induction L generalizing S with
  | nil => rfl
  | cons pv L ih =>
      have hp := hL pv (by simp)
      simp only [List.map_cons, insertAll]
      rw [setPath_into_last D S k pv.1 pv.2 hk hp]
      rcases hsp : setPath S pv.1 pv.2 with _ | S1
      · rfl
      · simp only [Option.map_some']
        exact ih S1 (fun pv' h' => hL pv' (by simp [h']))

/-- A document with no leaves prunes to nothing and consumes nothing. -/
theorem prunedFill_no_leaves (d : TFields BVal) (vs : List Int)
    (h : d.flatten [] = []) : prunedFill d vs = (.nil, vs) := by
  match d with
  | .nil => rfl
  | .cons k (.leaf a) rest => simp [TFields.flatten] at h
  | .cons k (.sub s) rest =>
      rw [TFields.flatten, List.append_eq_nil] at h
      have hs : s.flatten [] = [] := by
        have := h.1
        rw [TFields.flatten_shift s ([] ++ [k])] at this
        exact List.map_eq_nil_iff.mp this
      have hrest := h.2
      rw [prunedFill, prunedFill_no_leaves s vs hs]
      simp [TFields.isNil, prunedFill_no_leaves rest vs hrest]

/-- A document with at least one leaf prunes to a nonempty document. -/
theorem prunedFill_ne_nil (d : TFields BVal) (vs : List Int)
    (h : d.flatten [] ≠ []) : ((prunedFill d vs).1).isNil = false := by
  match d with
  | .nil => simp [TFields.flatten] at h
  | .cons k (.leaf a) rest =>
      rcases vs with _ | ⟨v, vs'⟩ <;> simp [prunedFill, TFields.isNil]
  | .cons k (.sub s) rest =>
      by_cases hs : s.flatten [] = []
      · have hrest : rest.flatten [] ≠ [] := by
          intro hr
          apply h
          rw [TFields.flatten, TFields.flatten_shift s ([] ++ [k]), hs, hr]
          rfl
        rw [prunedFill, prunedFill_no_leaves s vs hs]
        simp [TFields.isNil]
        exact prunedFill_ne_nil rest vs hrest
      · have h1 := prunedFill_ne_nil s vs hs
        rw [prunedFill, if_neg (by rw [h1]; exact Bool.false_ne_true)]
        simp [TFields.isNil]

/-- Pruned filling consumes exactly one value per leaf: surplus values are
passed through untouched. -/
theorem prunedFill_consume (d : TFields BVal) (vs1 rest2 : List Int)
    (h : vs1.length = (d.flatten []).length) :
    prunedFill d (vs1 ++ rest2) = ((prunedFill d vs1).1, rest2) := by
  match d with
  | .nil =>
      have : vs1 = [] := List.length_eq_zero.mp (by simpa [TFields.flatten] using h)
      subst this
      rfl
  | .cons k (.leaf a) rest =>
      rcases vs1 with _ | ⟨v, vs1'⟩
      · simp [TFields.flatten] at h
      · have hlen : vs1'.length = (rest.flatten []).length := by
          simpa [TFields.flatten] using h
        have ih := prunedFill_consume rest vs1' rest2 hlen
        simp [prunedFill, ih]
  | .cons k (.sub s) rest =>
      have hflat : ((TFields.cons k (TEntry.sub s) rest).flatten []).length
          = (s.flatten []).length + (rest.flatten []).length := by
        rw [TFields.flatten, TFields.flatten_shift s ([] ++ [k])]
        simp
      have hge : (s.flatten []).length ≤ vs1.length := by
        rw [h, hflat]; omega
      have htake : (vs1.take (s.flatten []).length).length = (s.flatten []).length := by
        rw [List.length_take]; omega
      have hdrop : (vs1.drop (s.flatten []).length).length = (rest.flatten []).length := by
        rw [List.length_drop, h, hflat]; omega
      have hv : vs1 ++ rest2 =
          vs1.take (s.flatten []).length ++ ((vs1.drop (s.flatten []).length) ++ rest2) := by
        rw [← List.append_assoc, List.take_append_drop]
      have hs1 := prunedFill_consume s (vs1.take (s.flatten []).length)
        ((vs1.drop (s.flatten []).length) ++ rest2) htake
      have hs2 := prunedFill_consume s (vs1.take (s.flatten []).length)
        (vs1.drop (s.flatten []).length) htake
      have hr1 := prunedFill_consume rest (vs1.drop (s.flatten []).length) rest2 hdrop
      have hvs : vs1 = vs1.take (s.flatten []).length ++ vs1.drop (s.flatten []).length :=
        (List.take_append_drop _ vs1).symm
      have hpf2 : prunedFill s vs1 =
          ((prunedFill s (vs1.take (s.flatten []).length)).1,
            vs1.drop (s.flatten []).length) := by
        conv_lhs => rw [hvs]
        exact hs2
      rw [prunedFill, hv, hs1]
      dsimp only
      rw [hr1]
      conv_rhs => rw [prunedFill, hpf2]
      dsimp only
      by_cases hni : ((prunedFill s (vs1.take (s.flatten []).length)).1).isNil = true
      · simp [hni]
      · simp [hni]
/-- Prepending on the left of the field-list concatenation is definitional. -/
theorem nil_append_t (x : TFields Int) : (.nil : TFields Int) ++ x = x := rfl

/-- Zipping key paths all prefixed with `k` pushes the prefix inside. -/
theorem zip_map_prepend (ps : List (List String)) (vs : List Int) (k : String) :
    (ps.map (k :: ·)).zip vs = (ps.zip vs).map (fun pv => (k :: pv.1, pv.2)) := by
  induction ps generalizing vs with
  | nil => rfl
  | cons p ps ih =>
      rcases vs with _ | ⟨v, vs⟩
      · rfl
      · simp [ih]

/-- Paths of the plain traversal, prefixed with the subdocument key. -/
theorem flatten_sub_paths {α : Type} (s : TFields α) (k : String) :
    (s.flatten [k]).map Prod.fst =
      ((s.flatten []).map Prod.fst).map (k :: ·) := by
  rw [TFields.flatten_shift s [k]]
  simp

/-- The per-sample insertion of every metric key path (with one value per
leaf, in pre-order) rebuilds exactly the reference document's shape, pruned
of leafless subtrees, appended to whatever was already built. -/
theorem insertAll_flatten_zip (d : TFields BVal) (vs : List Int) (D0 : TFields Int)
    (hnd : d.noDupKeys = true)
    (hdisj : ∀ k' ∈ D0.keys, k' ∉ d.keys)
    (hlen : vs.length = (d.flatten []).length) :
    insertAll D0 (((d.flatten []).map Prod.fst).zip vs) =
      some (D0 ++ (prunedFill d vs).1) := by
  match d with
  | .nil =>
      have : vs = [] := List.length_eq_zero.mp (by simpa [TFields.flatten] using hlen)
      subst this
      simp [TFields.flatten, insertAll, prunedFill, TFields.append_nil]
  | .cons k (.leaf a) rest =>
      rcases vs with _ | ⟨v, vs'⟩
      · simp [TFields.flatten] at hlen
      · obtain ⟨hnk, -, hnd1⟩ := TFields.noDup_parts hnd
        have hkD0 : k ∉ D0.keys := fun hm => hdisj k hm (by simp [TFields.keys])
        have hlen' : vs'.length = (rest.flatten []).length := by
          simpa [TFields.flatten] using hlen
        have ih := insertAll_flatten_zip rest vs'
          (D0 ++ TFields.cons k (TEntry.leaf v) TFields.nil) hnd1
          (by
            intro k' hk'
            rw [TFields.keys_append] at hk'
            rcases List.mem_append.mp hk' with h1 | h2
            · exact fun hm => hdisj k' h1 (by simp [TFields.keys, hm])
            · have hke : k' = k := by simpa [TFields.keys] using h2
              subst hke
              exact hnk)
          hlen'
        have hfl : (TFields.cons k (TEntry.leaf a) rest).flatten [] =
            ([k], a) :: rest.flatten [] := by
          simp [TFields.flatten]
        rw [hfl, List.map_cons, List.zip_cons_cons]
        simp only [insertAll, setPath]
        rw [TFields.set_of_notMem D0 k _ hkD0, ih, TFields.append_assoc]
        rfl
  | .cons k (.sub s) rest =>
      obtain ⟨hnk, hnds0, hnd1⟩ := TFields.noDup_parts hnd
      have hnds : s.noDupKeys = true := by simpa [TFields.entryNoDup] using hnds0
      have hkD0 : k ∉ D0.keys := fun hm => hdisj k hm (by simp [TFields.keys])
      have hdisj' : ∀ k' ∈ D0.keys, k' ∉ rest.keys :=
        fun k' h1 hm => hdisj k' h1 (by simp [TFields.keys, hm])
      have hflat : (TFields.cons k (TEntry.sub s) rest).flatten [] =
          s.flatten [k] ++ rest.flatten [] := by
        simp [TFields.flatten]
      by_cases hs0 : s.flatten [] = []
      · have hsk : s.flatten [k] = [] := by
          rw [TFields.flatten_shift s [k], hs0]
          rfl
        have hlen' : vs.length = (rest.flatten []).length := by
          rw [hlen, hflat, hsk]
          rfl
        have ih := insertAll_flatten_zip rest vs D0 hnd1 hdisj' hlen'
        rw [hflat, hsk, List.nil_append, ih, prunedFill,
          prunedFill_no_leaves s vs hs0]
        rfl
      · have hlensk : (s.flatten [k]).length = (s.flatten []).length := by
          rw [TFields.flatten_shift s [k], List.length_map]
        have hlen0 : vs.length = (s.flatten []).length + (rest.flatten []).length := by
          rw [hlen, hflat, List.length_append, hlensk]
        have htake : (vs.take (s.flatten []).length).length
            = (s.flatten []).length := by
          rw [List.length_take]
          omega
        have hdroplen : (vs.drop (s.flatten []).length).length
            = (rest.flatten []).length := by
          rw [List.length_drop]
          omega
        have hzsplit :
            (((TFields.cons k (TEntry.sub s) rest).flatten []).map Prod.fst).zip vs =
              ((s.flatten [k]).map Prod.fst).zip (vs.take (s.flatten []).length) ++
              ((rest.flatten []).map Prod.fst).zip (vs.drop (s.flatten []).length) := by
          conv_lhs => rw [hflat, ← List.take_append_drop (s.flatten []).length vs]
          rw [List.map_append]
          exact List.zip_append (by rw [List.length_map, htake, hlensk])
        have ihs := insertAll_flatten_zip s (vs.take (s.flatten []).length)
          .nil hnds (by intro k' hk'; simp [TFields.keys] at hk') htake
        rw [nil_append_t] at ihs
        have hbatch1 :
            insertAll D0 (((s.flatten [k]).map Prod.fst).zip
                (vs.take (s.flatten []).length)) =
              some (D0 ++ TFields.cons k
                (TEntry.sub (prunedFill s (vs.take (s.flatten []).length)).1)
                TFields.nil) := by
          rw [flatten_sub_paths s k,
            zip_map_prepend ((s.flatten []).map Prod.fst)
              (vs.take (s.flatten []).length) k]
          rcases hz : ((s.flatten []).map Prod.fst).zip
              (vs.take (s.flatten []).length) with _ | ⟨⟨p0, v0⟩, Ltail⟩
          · exfalso
            have hlz := congrArg List.length hz
            rw [List.length_zip, List.length_map, htake, List.length_nil,
              Nat.min_self] at hlz
            exact hs0 (List.length_eq_zero.mp hlz)
          · have hp0 : p0 ≠ [] := by
              have hmem : (p0, v0) ∈ ((s.flatten []).map Prod.fst).zip
                  (vs.take (s.flatten []).length) := by
                rw [hz]
                simp
              rcases List.mem_map.mp (List.of_mem_zip hmem).1 with ⟨pv, hpv, hfst⟩
              rw [← hfst]
              exact TFields.flatten_path_ne_nil s pv hpv
            have hLtail : ∀ pv ∈ Ltail, pv.1 ≠ ([] : List String) := by
              intro pv hpv
              have hmem : (pv.1, pv.2) ∈ ((s.flatten []).map Prod.fst).zip
                  (vs.take (s.flatten []).length) := by
                rw [hz]
                simp [hpv]
              rcases List.mem_map.mp (List.of_mem_zip hmem).1 with ⟨pv', hpv', hfst⟩
              rw [← hfst]
              exact TFields.flatten_path_ne_nil s pv' hpv'
            rw [hz] at ihs
            simp only [insertAll, setPath_nil_chain p0 v0 hp0] at ihs
            simp only [List.map_cons, insertAll,
              setPath_absent D0 k p0 v0 hkD0 hp0,
              setPath_nil_chain p0 v0 hp0, Option.map_some']
            rw [insertAll_prepend Ltail k (chain p0 v0) D0 hkD0 hLtail, ihs]
            rfl
        have ihr := insertAll_flatten_zip rest (vs.drop (s.flatten []).length)
          (D0 ++ TFields.cons k
            (TEntry.sub (prunedFill s (vs.take (s.flatten []).length)).1)
            TFields.nil)
          hnd1
          (by
            intro k' hk'
            rw [TFields.keys_append] at hk'
            rcases List.mem_append.mp hk' with h1 | h2
            · exact hdisj' k' h1
            · have hke : k' = k := by simpa [TFields.keys] using h2
              subst hke
              exact hnk)
          hdroplen
        rw [hzsplit, insertAll_append, hbatch1]
        dsimp only
        rw [ihr, TFields.append_assoc]
        have hpf : prunedFill s vs =
            ((prunedFill s (vs.take (s.flatten []).length)).1,
              vs.drop (s.flatten []).length) := by
          conv_lhs => rw [← List.take_append_drop (s.flatten []).length vs]
          exact prunedFill_consume s _ _ htake
        rw [prunedFill, hpf]
        dsimp only
        rw [if_neg (by
          rw [prunedFill_ne_nil s (vs.take (s.flatten []).length) hs0]
          simp)]
        rfl

/-- The leaves of the pruned rebuild are exactly the traversal paths zipped
with the inserted values. -/
theorem prunedFill_flatten (d : TFields BVal) (vs : List Int)
    (hlen : vs.length = (d.flatten []).length) :
    ((prunedFill d vs).1).flatten [] = ((d.flatten []).map Prod.fst).zip vs := by
  match d with
  | .nil =>
      have : vs = [] := List.length_eq_zero.mp (by simpa [TFields.flatten] using hlen)
      subst this
      rfl
  | .cons k (.leaf a) rest =>
      rcases vs with _ | ⟨v, vs'⟩
      · simp [TFields.flatten] at hlen
      · have hlen' : vs'.length = (rest.flatten []).length := by
          simpa [TFields.flatten] using hlen
        have ih := prunedFill_flatten rest vs' hlen'
        simp [prunedFill, TFields.flatten, ih]
  | .cons k (.sub s) rest =>
      have hflat : (TFields.cons k (TEntry.sub s) rest).flatten [] =
          s.flatten [k] ++ rest.flatten [] := by
        simp [TFields.flatten]
      by_cases hs0 : s.flatten [] = []
      · have hsk : s.flatten [k] = [] := by
          rw [TFields.flatten_shift s [k], hs0]
          rfl
        have hlen' : vs.length = (rest.flatten []).length := by
          rw [hlen, hflat, hsk]
          rfl
        have ih := prunedFill_flatten rest vs hlen'
        rw [prunedFill, prunedFill_no_leaves s vs hs0]
        show (prunedFill rest vs).1.flatten [] = _
        rw [ih, hflat, hsk, List.nil_append]
      · have hlensk : (s.flatten [k]).length = (s.flatten []).length := by
          rw [TFields.flatten_shift s [k], List.length_map]
        have hlen0 : vs.length = (s.flatten []).length + (rest.flatten []).length := by
          rw [hlen, hflat, List.length_append, hlensk]
        have htake : (vs.take (s.flatten []).length).length
            = (s.flatten []).length := by
          rw [List.length_take]
          omega
        have hdroplen : (vs.drop (s.flatten []).length).length
            = (rest.flatten []).length := by
          rw [List.length_drop]
          omega
        have hzsplit :
            (((TFields.cons k (TEntry.sub s) rest).flatten []).map Prod.fst).zip vs =
              ((s.flatten [k]).map Prod.fst).zip (vs.take (s.flatten []).length) ++
              ((rest.flatten []).map Prod.fst).zip (vs.drop (s.flatten []).length) := by
          conv_lhs => rw [hflat, ← List.take_append_drop (s.flatten []).length vs]
          rw [List.map_append]
          exact List.zip_append (by rw [List.length_map, htake, hlensk])
        have hpf : prunedFill s vs =
            ((prunedFill s (vs.take (s.flatten []).length)).1,
              vs.drop (s.flatten []).length) := by
          conv_lhs => rw [← List.take_append_drop (s.flatten []).length vs]
          exact prunedFill_consume s _ _ htake
        have ihs := prunedFill_flatten s (vs.take (s.flatten []).length) htake
        have ihr := prunedFill_flatten rest (vs.drop (s.flatten []).length) hdroplen
        rw [prunedFill, hpf]
        dsimp only
        rw [if_neg (by
          rw [prunedFill_ne_nil s (vs.take (s.flatten []).length) hs0]
          simp)]
        dsimp only
        rw [hzsplit]
        show TFields.flatten _ ([] ++ [k]) ++ TFields.flatten _ [] = _
        rw [TFields.flatten_shift _ ([] ++ [k]), ihs, ihr]
        simp only [List.nil_append, List.cons_append]
        rw [← zip_map_prepend, ← flatten_sub_paths s k]

/-- The expanded delta stream has exactly the requested length. -/
theorem expandStream_length (n : Nat) (zc : Int) (bs : List Nat) :
    (expandStream n zc bs).1.length = n := by
  induction n generalizing zc bs with
  | zero => rfl
  | succ n ih => simp [expandStream, ih]

/-- Expansion of `m + n` deltas is expansion of `m` followed by expansion
of `n` from the reached state. -/
theorem expandStream_add (m n : Nat) (zc : Int) (bs : List Nat) :
    expandStream (m + n) zc bs =
      ((expandStream m zc bs).1 ++
        (expandStream n (expandStream m zc bs).2.1 (expandStream m zc bs).2.2).1,
       (expandStream n (expandStream m zc bs).2.1 (expandStream m zc bs).2.2).2) := by
  induction m generalizing zc bs with
  | zero => simp [expandStream]
  | succ m ih =>
      rw [Nat.succ_add]
      simp [expandStream, ih]

/-- The per-column fill is the scan of the expanded deltas, and reaches the
same state. -/
theorem fillMetric_expand (kind : MKind) (n : Nat) (prev zc : Int) (bs : List Nat) :
    fillMetric kind n prev zc bs =
      (scanVals kind prev (expandStream n zc bs).1, (expandStream n zc bs).2) := by
  induction n generalizing prev zc bs with
  | zero => rfl
  | succ n ih => simp [fillMetric, expandStream, scanVals, ih]

/-- The fill of one column produces exactly `n` values. -/
theorem fillMetric_length (kind : MKind) (n : Nat) (prev zc : Int) (bs : List Nat) :
    (fillMetric kind n prev zc bs).1.length = n := by
  induction n generalizing prev zc bs with
  | zero => rfl
  | succ n ih => simp [fillMetric, ih]

/-- The whole column fill equals the claim-side columns of the expanded
`(metric_count × delta_count)` delta matrix, with the single pending-zero
counter carried across column boundaries. -/
theorem fillMetrics_expand (ms : List Metric) (D : Nat) (zc : Int) (bs : List Nat) :
    fillMetrics ms D zc bs =
      (chunkValsCols ms D (expandStream (ms.length * D) zc bs).1,
       (expandStream (ms.length * D) zc bs).2) := by
  induction ms generalizing zc bs with
  | nil => simp [fillMetrics, Nat.zero_mul, expandStream, chunkValsCols]
  | cons m ms ih =>
      have harith : (ms.length + 1) * D = D + ms.length * D := by ring
      rw [fillMetrics, fillMetric_expand]
      show ((m, m.refVal :: scanVals m.kind m.refVal (expandStream D zc bs).1) ::
          (fillMetrics ms D (expandStream D zc bs).2.1 (expandStream D zc bs).2.2).1,
        (fillMetrics ms D (expandStream D zc bs).2.1 (expandStream D zc bs).2.2).2)
        = _
      rw [ih]
      have hsplit := expandStream_add D (ms.length * D) zc bs
      rw [List.length_cons, harith, hsplit]
      have htake := List.take_left (expandStream D zc bs).1
        (expandStream (ms.length * D) (expandStream D zc bs).2.1
          (expandStream D zc bs).2.2).1
      rw [expandStream_length] at htake
      have hdrop := List.drop_left (expandStream D zc bs).1
        (expandStream (ms.length * D) (expandStream D zc bs).2.1
          (expandStream D zc bs).2.2).1
      rw [expandStream_length] at hdrop
      rw [chunkValsCols, htake, hdrop]

/-- Reading a scanned column at index `i` (0 is the reference value) gives
the reference value plus the sum of the first `i` coerced deltas. -/
theorem scan_getD (kind : MKind) (prev : Int) (ds : List Int) (i : Nat)
    (h : i ≤ ds.length) :
    (prev :: scanVals kind prev ds).getD i 0 =
      prev + ((ds.take i).map (coerceDelta kind)).sum := by
  induction ds generalizing prev i with
  | nil =>
      have : i = 0 := Nat.le_zero.mp h
      subst this
      simp
  | cons d ds ih =>
      rcases i with _ | i
      · simp
      · have hi : i ≤ ds.length := Nat.succ_le_succ_iff.mp h
        show (scanVals kind prev (d :: ds)).getD i 0 = _
        rw [scanVals]
        show ((prev + coerceDelta kind d) :: scanVals kind (prev + coerceDelta kind d) ds).getD i 0 = _
        rw [ih (prev + coerceDelta kind d) i hi]
        simp [add_assoc]

/-- Reading every column of the claim-side value matrix at sample index `i`
gives the reference values plus the sums of the first `i` expanded deltas
of the respective column. -/
theorem chunk_value_delta (ms : List Metric) (D : Nat) (ds : List Int) (i : Nat)
    (hlen : ds.length = ms.length * D) (hi : i ≤ D) :
    (chunkValsCols ms D ds).map (fun c => (c.1.keyPath, c.2.getD i 0)) =
      (chunkDeltas ms D ds).map (fun c =>
        (c.1.keyPath, c.1.refVal + ((c.2.take i).map (coerceDelta c.1.kind)).sum)) := by
  induction ms generalizing ds with
  | nil => rfl
  | cons m ms ih =>
      have hDle : D ≤ ds.length := by
        rw [hlen, List.length_cons]
        calc D ≤ D * (ms.length + 1) := Nat.le_mul_of_pos_right D (by omega)
        _ = (ms.length + 1) * D := by ring
      have htl : (ds.take D).length = D := by
        rw [List.length_take]
        omega
      have hdl : (ds.drop D).length = ms.length * D := by
        rw [List.length_drop, hlen, List.length_cons]
        have : (ms.length + 1) * D = ms.length * D + D := by ring
        omega
      rw [chunkValsCols, chunkDeltas, List.map_cons, List.map_cons]
      rw [scan_getD m.kind m.refVal (ds.take D) i (by omega)]
      rw [ih (ds.drop D) hdl]

/-- Correspondence between valid metric extraction and the traversal: the
metric key paths are exactly the traversal paths, one per leaf. -/
theorem metricsOfLeaves_paths (l : List (List String × BVal)) (ms : List Metric)
    (h : metricsOfLeaves l = .ok ms) :
    ms.map Metric.keyPath = l.map Prod.fst ∧ ms.length = l.length := by
  induction l generalizing ms with
  | nil =>
      rw [metricsOfLeaves] at h
      rcases h
      exact ⟨rfl, rfl⟩
  | cons pv rest ih =>
      rw [metricsOfLeaves] at h
      rcases hc : getConstructorsForVal pv.2 with _ | tc
      · rw [hc] at h
        rcases h
      · rw [hc] at h
        rcases hr : metricsOfLeaves rest with _ | ms'
        · rw [hr] at h
          rcases h
        · rw [hr] at h
          rcases h
          have := ih ms' hr
          simp [this.1, this.2]

/-- If every requested per-sample rebuild succeeds, the rebuild loop
returns all the built documents, in order. -/
theorem buildAll_ok (cols : List (Metric × List Int)) (is : List Nat)
    (f : Nat → TFields Int) (h : ∀ i ∈ is, buildDoc cols i = some (f i)) :
    buildAll cols is = .ok (is.map f) := by
  induction is with
  | nil => rfl
  | cons i is ih =>
      rw [buildAll, h i (by simp), ih (fun j hj => h j (by simp [hj]))]
      rfl

/-- The claim-side value columns carry the metrics in order. -/
theorem chunkValsCols_fst (ms : List Metric) (D : Nat) (ds : List Int) :
    (chunkValsCols ms D ds).map Prod.fst = ms := by
  induction ms generalizing ds with
  | nil => rfl
  | cons m ms ih => simp [chunkValsCols, ih]

/-- Splitting a map producing pairs into a zip of two maps. -/
theorem map_pair_zip {A B C : Type} (l : List A) (f : A → B) (g : A → C) :
    l.map (fun c => (f c, g c)) = (l.map f).zip (l.map g) := by
  induction l with
  | nil => rfl
  | cons a l ih => simp [ih]

theorem decodeVarintAux_exhausts (bs : List Nat) (res shift : Nat)
    (h : ∀ b ∈ bs, b &&& 0x80 ≠ 0) : (decodeVarintAux bs res shift).2 = [] := by
  induction bs generalizing res shift with
  | nil => rfl
  | cons b rest ih =>
      have hb := h b (by simp)
      simp only [decodeVarintAux, hb, if_neg hb]
      exact ih _ _ (fun b' hb' => h b' (by simp [hb']))

end FTDCDecode

namespace FTDCLegacy

/-- A cursor of continuation bytes makes the legacy unpack loop run off the
end of the data and raise. -/
theorem unpackGo_exhausts (bs : List Nat) (at_ res shift : Nat)
    (h : ∀ b ∈ bs, b &&& 0x80 ≠ 0) : unpackGo bs at_ res shift = none := by
  induction bs generalizing at_ res shift with
  | nil => rfl
  | cons b rest ih =>
      have hb := h b (by simp)
      simp only [unpackGo, if_neg hb]
      exact ih _ _ _ (fun b' hb' => h b' (by simp [hb']))

/-- With zero deltas requested, the legacy fill returns an empty value list
per metric and consumes nothing. -/
theorem lFillAll_zero (ms : List (List String × Int)) (data : List Nat)
    (nz : Int) (at_ : Nat) :
    lFillAll data ms 0 nz at_ =
      some (ms.map fun m => (m.1, ([] : List Int)), nz, at_) := by
  induction ms with
  | nil => rfl
  | cons m ms ih => simp [lFillAll, lFillMetric, ih]

end FTDCLegacy

namespace ClientPerf

/-- Unfolding of `stepRecord` on a record whose duration lookup succeeds. -/
theorem stepRecord_some (st : RState) (prev : ℚ) (r : Sample) (d : ℚ)
    (hd : durationOf r = some d) :
    stepRecord st prev r =
      some ({ st with
                minDuration := if st.firstRecord.isNone then d - prev
                               else min st.minDuration (d - prev)
                maxDuration := if st.firstRecord.isNone then d - prev
                               else max st.maxDuration (d - prev)
                firstRecord :=
                  match st.firstRecord with
                  | none => some (r, r.tsMs - (d - prev) / 1000000)
                  | some f => if f.2 > r.tsMs - (d - prev) / 1000000
                              then some (r, r.tsMs - (d - prev) / 1000000) else some f
                lastRecord := some r
                gaugesWorkersMin := min st.gaugesWorkersMin r.workers
                gaugesWorkersMax := min st.gaugesWorkersMax r.workers
                extractedDurations := st.extractedDurations ++ [d - prev] },
            d) := by
  simp [stepRecord, hd]

/-- A loop over records that all carry a duration raises no error. -/
theorem runLoop_ok (l : List Sample) (st : RState) (p : ℚ)
    (h : ∀ g ∈ l, (durationOf g).isSome) : (runLoop st p l).2 = none := by
  induction l generalizing st p with
  | nil => rfl
  | cons r rest ih =>
      rcases Option.isSome_iff_exists.mp (h r (by simp)) with ⟨d, hd⟩
      rw [runLoop, stepRecord_some st p r d hd]
      exact ih _ _ (fun g hg => h g (by simp [hg]))

/-- The loop splits over list concatenation when its first half raises no
error. -/
theorem runLoop_append (l1 l2 : List Sample) (st : RState) (p : ℚ)
    (h : (runLoop st p l1).2 = none) :
    runLoop st p (l1 ++ l2) =
      runLoop (runLoop st p l1).1.1 (runLoop st p l1).1.2 l2 := by
  induction l1 generalizing st p with
  | nil => rfl
  | cons r rest ih =>
      rcases hs : stepRecord st p r with _ | st'
      · exfalso
        rw [runLoop, hs] at h
        exact Option.some_ne_none _ h
      · rw [List.cons_append, runLoop, hs, runLoop, hs]
        exact ih _ _ (by rw [runLoop, hs] at h; exact h)

/-- The record loop never writes the total fields: they are computed only
after a complete pass. -/
theorem runLoop_totals (l : List Sample) (st : RState) (p : ℚ) :
    ((runLoop st p l).1.1).operationsTotal = st.operationsTotal ∧
    ((runLoop st p l).1.1).documentsTotal = st.documentsTotal ∧
    ((runLoop st p l).1.1).sizeTotal = st.sizeTotal ∧
    ((runLoop st p l).1.1).errorsTotal = st.errorsTotal ∧
    ((runLoop st p l).1.1).durationTotal = st.durationTotal ∧
    ((runLoop st p l).1.1).timersTotal = st.timersTotal ∧
    ((runLoop st p l).1.1).wallTimeTotal = st.wallTimeTotal := by
  induction l generalizing st p with
  | nil => exact ⟨rfl, rfl, rfl, rfl, rfl, rfl, rfl⟩
  | cons r rest ih =>
      rcases hd : durationOf r with _ | d
      · rw [runLoop, stepRecord, hd]
        exact ⟨rfl, rfl, rfl, rfl, rfl, rfl, rfl⟩
      · rw [runLoop, stepRecord_some st p r d hd]
        exact ih _ _

/-- The loop preserves equality of the two workers accumulators (both are
updated with `min`). -/
theorem runLoop_workers_eq (l : List Sample) (st : RState) (p : ℚ)
    (h : st.gaugesWorkersMin = st.gaugesWorkersMax) :
    ((runLoop st p l).1.1).gaugesWorkersMin =
      ((runLoop st p l).1.1).gaugesWorkersMax := by
  induction l generalizing st p with
  | nil => exact h
  | cons r rest ih =>
      rcases hd : durationOf r with _ | d
      · rw [runLoop, stepRecord, hd]; exact h
      · rw [runLoop, stepRecord_some st p r d hd]
        exact ih _ _ (by simp [h])

/-- With nonnegative workers gauges, a workers accumulator that starts at 0
stays at 0 under min-assignment. -/
theorem runLoop_workers_zero (l : List Sample) (st : RState) (p : ℚ)
    (hmin : st.gaugesWorkersMin = 0) (hmax : st.gaugesWorkersMax = 0)
    (h : ∀ s ∈ l, 0 ≤ s.workers) :
    ((runLoop st p l).1.1).gaugesWorkersMin = 0 ∧
    ((runLoop st p l).1.1).gaugesWorkersMax = 0 := by
  induction l generalizing st p with
  | nil => exact ⟨hmin, hmax⟩
  | cons r rest ih =>
      rcases hd : durationOf r with _ | d
      · rw [runLoop, stepRecord, hd]; exact ⟨hmin, hmax⟩
      · rw [runLoop, stepRecord_some st p r d hd]
        refine ih _ _ ?_ ?_ (fun s hs => h s (by simp [hs])) <;>
          simp [hmin, hmax, min_eq_left (h r (by simp))]

/-- The post-loop totals pass does not touch the workers accumulators. -/
theorem postProcess_workers (st : RState) :
    ((postProcess st).1).gaugesWorkersMin = st.gaugesWorkersMin ∧
    ((postProcess st).1).gaugesWorkersMax = st.gaugesWorkersMax := by
  unfold postProcess
  rcases st.firstRecord with _ | f
  · simp
  · rcases st.lastRecord with _ | l
    · simp
    · rcases hdl : durationOf l with _ | d <;> simp [hdl]

/-- If the loop starts with a retained first record, afterwards the
retained `start_ts` is the running minimum of the start of the incoming
records' start timestamps. -/
theorem runLoop_first_some (l : List Sample) (st : RState) (p : ℚ)
    (f : Sample × ℚ) (hf : st.firstRecord = some f)
    (h : ∀ g ∈ l, (durationOf g).isSome) :
    ((runLoop st p l).1.1).firstRecord.map Prod.snd =
      some (List.foldl min f.2 (startTsList p l)) := by
  induction l generalizing st p f with
  | nil => simp [runLoop, hf, startTsList]
  | cons r rest ih =>
      rcases Option.isSome_iff_exists.mp (h r (by simp)) with ⟨d, hd⟩
      rw [runLoop, stepRecord_some st p r d hd]
      have hrest : ∀ g ∈ rest, (durationOf g).isSome :=
        fun g hg => h g (by simp [hg])
      rw [startTsList]
      simp only [hd, Option.getD_some, List.foldl_cons]
      by_cases hlt : f.2 > r.tsMs - (d - p) / 1000000
      · rw [min_eq_right (le_of_lt hlt)]
        refine ih _ _ (r, r.tsMs - (d - p) / 1000000) ?_ hrest
        simp [hf, hlt]
      · rw [min_eq_left (le_of_not_lt hlt)]
        refine ih _ _ f ?_ hrest
        simp [hf, hlt]

/-- Starting from an empty first record, the retained `start_ts` after the
loop is the minimum of all records' start timestamps. -/
theorem runLoop_first_none (l : List Sample) (st : RState) (p : ℚ)
    (hf : st.firstRecord = none) (hne : l ≠ [])
    (h : ∀ g ∈ l, (durationOf g).isSome) :
    ((runLoop st p l).1.1).firstRecord.map Prod.snd =
      some (minQ (startTsList p l)) := by
  match l, hne with
  | r :: rest, _ =>
      rcases Option.isSome_iff_exists.mp (h r (by simp)) with ⟨d, hd⟩
      rw [runLoop, stepRecord_some st p r d hd]
      rw [startTsList]
      simp only [hd, Option.getD_some, minQ]
      exact runLoop_first_some rest _ d (r, _) (by simp [hf])
        (fun g hg => h g (by simp [hg]))

/-- After a nonempty error-free loop, the retained last record is the last
list element. -/
theorem runLoop_last (l : List Sample) (st : RState) (p : ℚ) (hne : l ≠ [])
    (h : ∀ g ∈ l, (durationOf g).isSome) :
    ((runLoop st p l).1.1).lastRecord = l.getLast? := by
  induction l generalizing st p with
  | nil => exact absurd rfl hne
  | cons r rest ih =>
      rcases Option.isSome_iff_exists.mp (h r (by simp)) with ⟨d, hd⟩
      rw [runLoop, stepRecord_some st p r d hd]
      rcases rest with _ | ⟨r2, rest'⟩
      · simp [runLoop]
      · rw [List.getLast?_cons_cons]
        exact ih _ _ (by simp) (fun g hg => h g (by simp [hg]))

/-- Zipping the five quantile names with any five values and reading off
name/version pairs gives the five fixed pairs. -/
theorem quantile_pairs (vals : List ℚ) (h : vals.length = 5) :
    ((quantileNames.zip vals).map
        (fun nv => ((Statistic.mk nv.1 nv.2 4 false).name,
                    (Statistic.mk nv.1 nv.2 4 false).version))) =
      quantileNames.map (fun n => (n, 4)) := by
  match vals, h with
  | [a, b, c, d, e], _ => rfl

/-- The modelled mquantiles estimator returns one estimate per requested
probability. -/
theorem mquantilesM_length (data probs : List ℚ) (a b : ℚ) :
    (mquantilesM data probs a b).length = probs.length := by
  simp [mquantilesM]

end ClientPerf

/-! ## Claims -/

/-- C10: the shared mutable `key_path` accumulator of `_get_paths_and_vals`
is balanced: the state-passing reading of the function returns the
accumulator exactly as received (so a top-level call that starts with the
empty accumulator ends with it empty), and its output is exactly the
pre-order, insertion-order traversal of the document's leaves with the
current prefix — in particular the result of a top-level call does not
depend on prior completed calls. -/
theorem c10_key_path_accumulator_balanced (d : TFields FTDCDecode.BVal)
    (kp : List String) :
    (FTDCDecode.gpvSt d kp).2 = kp ∧
    (FTDCDecode.gpvSt d []).1 = d.flatten [] ∧
    (FTDCDecode.gpvSt d kp).1 = d.flatten kp := by
  refine ⟨?_, ?_, ?_⟩
  · rw [FTDCDecode.gpvSt_spec]
  · rw [FTDCDecode.gpvSt_spec]
  · rw [FTDCDecode.gpvSt_spec]

/-- C4 counterexample: on the empty cursor (exhausted before any terminator
byte) `_decode_varint` does not fail — it returns the value 0 — and on the
cursor holding the single continuation byte `0x80` it also returns 0 after
consuming everything.  The claim that the varint reader fails with
`Truncated` on every exhausted cursor is therefore false of the source. -/
theorem c4_counterexample :
    FTDCDecode.decodeVarint [] = (0, []) ∧
    FTDCDecode.decodeVarint [0x80] = (0, []) := by
  constructor <;> rfl

/-- C4 (amended): on a cursor exhausted before any terminator byte,
`decode.py`'s `_decode_varint` returns normally — the exhausted read acts
as a zero terminator byte, the whole cursor is consumed and the accumulated
bits are returned as the value — while `ftdc_decoder.py`'s `unpack` raises
an uncaught `IndexError` rather than a typed `Truncated` error. -/
theorem c4_varint_exhausted_behavior (bs : List Nat)
    (h : ∀ b ∈ bs, b &&& 0x80 ≠ 0) :
    (∃ v, FTDCDecode.decodeVarint bs = (v, [])) ∧
    FTDCLegacy.unpack bs 0 = none := by
  constructor
  · exact ⟨FTDCDecode.signed64 (FTDCDecode.decodeVarintAux bs 0 0).1,
      by simp [FTDCDecode.decodeVarint, FTDCDecode.decodeVarintAux_exhausts bs 0 0 h]⟩
  · exact FTDCLegacy.unpackGo_exhausts bs 0 0 0 h

/-- C4 witness: the single-continuation-byte cursor satisfies the
hypothesis and exhibits the amended behavior. -/
theorem c4_varint_exhausted_behavior_witness :
    (∃ v, FTDCDecode.decodeVarint [0x80] = (v, [])) ∧
    FTDCLegacy.unpack [0x80] 0 = none :=
  c4_varint_exhausted_behavior [0x80] (by decide)

/-- C2 counterexample: the statistic list never contains
`("OperationThroughput", 4)` — the source gives `OperationThroughput`
version 5 — so the claim's `(name, version)` pairs (OperationThroughput 4,
DocumentThroughput 0, ErrorRate 4, SizeThroughput 4, DurationTotal 4) are
not those of the code.  Exhibited on the initial (empty-input) state. -/
theorem c2_counterexample :
    (((ClientPerf.allStatistics ClientPerf.initState).map
        (fun s => (s.name, s.version))).contains ("OperationThroughput", 4) = false) ∧
    (((ClientPerf.allStatistics ClientPerf.initState).map
        (fun s => (s.name, s.version))).contains ("OperationThroughput", 5) = true) := by
  constructor <;> rfl

/-- C2 (amended): for every accumulator state — hence for every consumed
sample sequence — `all_statistics` returns the fixed 21-statistic list
whose `(name, version)` pairs are, in order: AverageLatency 3,
AverageSize 3, OperationThroughput 5, DocumentThroughput 1, ErrorRate 5,
SizeThroughput 5, WorkersMin 3, WorkersMax 3, LatencyMin 4, LatencyMax 4,
DurationTotal 5, ErrorsTotal 3, OperationsTotal 3, DocumentsTotal 0,
SizeTotal 3, OverheadTotal 1, and the five latency percentiles at 4. -/
theorem c2_statistic_names_versions (st : ClientPerf.RState) :
    (ClientPerf.allStatistics st).map (fun s => (s.name, s.version)) =
      [("AverageLatency", 3), ("AverageSize", 3), ("OperationThroughput", 5),
       ("DocumentThroughput", 1), ("ErrorRate", 5), ("SizeThroughput", 5),
       ("WorkersMin", 3), ("WorkersMax", 3), ("LatencyMin", 4), ("LatencyMax", 4),
       ("DurationTotal", 5), ("ErrorsTotal", 3), ("OperationsTotal", 3),
       ("DocumentsTotal", 0), ("SizeTotal", 3), ("OverheadTotal", 1),
       ("Latency50thPercentile", 4), ("Latency80thPercentile", 4),
       ("Latency90thPercentile", 4), ("Latency95thPercentile", 4),
       ("Latency99thPercentile", 4)] := by
  have hq : ((ClientPerf.latencyQuantiles st).map (fun s => (s.name, s.version))) =
      ClientPerf.quantileNames.map (fun n => (n, 4)) := by
    unfold ClientPerf.latencyQuantiles
    by_cases h : st.extractedDurations.length > 0
    · simp only [h, if_pos h, List.map_map]
      have h5 : (ClientPerf.mquantilesM st.extractedDurations
          [1/2, 4/5, 9/10, 19/20, 99/100] (1/3) (1/3)).length = 5 := by
        rw [ClientPerf.mquantilesM_length]; rfl
      have := ClientPerf.quantile_pairs _ h5
      simpa [List.map_map] using this
    · simp only [if_neg h]
      rfl
  simp only [ClientPerf.allStatistics, List.map_append, hq]
  rfl

/-- C9: both `gauges_workers_min` and `gauges_workers_max` are updated via
min-assignment from an initial 0, so after consuming any sample sequence
the `WorkersMax` statistic equals the `WorkersMin` statistic, and when
every `gauges.workers` value is nonnegative both are 0. -/
theorem c9_workers_min_max (samples : List ClientPerf.Sample) :
    (ClientPerf.workersMax (ClientPerf.process samples).1).value =
      (ClientPerf.workersMin (ClientPerf.process samples).1).value ∧
    ((∀ s ∈ samples, 0 ≤ s.workers) →
      (ClientPerf.workersMax (ClientPerf.process samples).1).value = 0 ∧
      (ClientPerf.workersMin (ClientPerf.process samples).1).value = 0) := by
  have heq := ClientPerf.runLoop_workers_eq samples ClientPerf.initState 0 rfl
  rcases hr : ClientPerf.runLoop ClientPerf.initState 0 samples with ⟨⟨st, p⟩, oe⟩
  rw [hr] at heq
  simp only at heq
  have hmain :
      (ClientPerf.process samples).1.gaugesWorkersMin =
        (ClientPerf.process samples).1.gaugesWorkersMax ∧
      ((∀ s ∈ samples, 0 ≤ s.workers) →
        (ClientPerf.process samples).1.gaugesWorkersMin = 0 ∧
        (ClientPerf.process samples).1.gaugesWorkersMax = 0) := by
    have hz := fun hw => ClientPerf.runLoop_workers_zero samples
      ClientPerf.initState 0 rfl rfl hw
    rw [hr] at hz
    simp only at hz
    rcases oe with _ | e
    · have hpw := ClientPerf.postProcess_workers st
      simp only [ClientPerf.process, hr, hpw.1, hpw.2]
      exact ⟨heq, fun hw => ⟨(hz hw).1, (hz hw).2⟩⟩
    · simp only [ClientPerf.process, hr]
      exact ⟨heq, fun hw => ⟨(hz hw).1, (hz hw).2⟩⟩
  refine ⟨?_, fun hw => ⟨?_, ?_⟩⟩
  · simpa [ClientPerf.workersMax, ClientPerf.workersMin] using hmain.1.symm
  · simpa [ClientPerf.workersMax] using (hmain.2 hw).2
  · simpa [ClientPerf.workersMin] using (hmain.2 hw).1

/-- C9 witness: on the concrete one-record sequence with `workers = 1`
(nonnegative), both statistics are 0 and they agree. -/
theorem c9_workers_min_max_witness :
    (ClientPerf.workersMax (ClientPerf.process [ClientPerf.exGood]).1).value =
      (ClientPerf.workersMin (ClientPerf.process [ClientPerf.exGood]).1).value ∧
    (ClientPerf.workersMax (ClientPerf.process [ClientPerf.exGood]).1).value = 0 := by
  have h := c9_workers_min_max [ClientPerf.exGood]
  exact ⟨h.1, (h.2 (by norm_num [ClientPerf.exGood])).1⟩

/-- C7 counterexample: on the concrete sequence of one well-formed record
followed by a record whose `timers` has neither `dur` nor `duration`, the
rollup surfaces the missing-duration error — but the previously accumulated
state is not discarded: the latency vector still holds the first record's
extracted duration, so the accumulator is not "as if no samples had been
consumed". -/
theorem c7_counterexample :
    (ClientPerf.process [ClientPerf.exGood, ClientPerf.exBad]).2 =
      some (ClientPerf.RErr.missingField "duration") ∧
    (ClientPerf.process [ClientPerf.exGood, ClientPerf.exBad]).1.extractedDurations
      = [100] ∧
    (ClientPerf.process [ClientPerf.exGood, ClientPerf.exBad]).1 ≠
      ClientPerf.initState := by
  have h100 : (ClientPerf.process [ClientPerf.exGood, ClientPerf.exBad]).1.extractedDurations
      = [100] := by
    norm_num [ClientPerf.process, ClientPerf.runLoop, ClientPerf.stepRecord,
      ClientPerf.durationOf, ClientPerf.postProcess, ClientPerf.exGood,
      ClientPerf.exBad, ClientPerf.initState]
  refine ⟨?_, h100, fun h => ?_⟩
  · norm_num [ClientPerf.process, ClientPerf.runLoop, ClientPerf.stepRecord,
      ClientPerf.durationOf, ClientPerf.postProcess, ClientPerf.exGood,
      ClientPerf.exBad, ClientPerf.initState]
  · rw [h] at h100
    simp [ClientPerf.initState] at h100

/-- C7 (amended): when a consumed record's `timers` has neither `dur` nor
`duration`, the rollup fails with the missing-field ("duration") error at
that record and abandons the remaining records; the per-record accumulators
(latency vector, latency min/max, workers min/max, first/last record) keep
the values accumulated from the records before the failing one, while the
total fields stay at their initial zeros because they are only computed
after a complete pass. -/
theorem c7_missing_duration_error (goods : List ClientPerf.Sample)
    (bad : ClientPerf.Sample) (rest : List ClientPerf.Sample)
    (hg : ∀ g ∈ goods, (ClientPerf.durationOf g).isSome)
    (hb : ClientPerf.durationOf bad = none) :
    ClientPerf.process (goods ++ bad :: rest) =
      ((ClientPerf.runLoop ClientPerf.initState 0 goods).1.1,
        some (ClientPerf.RErr.missingField "duration")) ∧
    (ClientPerf.process (goods ++ bad :: rest)).1.operationsTotal = 0 ∧
    (ClientPerf.process (goods ++ bad :: rest)).1.documentsTotal = 0 ∧
    (ClientPerf.process (goods ++ bad :: rest)).1.sizeTotal = 0 ∧
    (ClientPerf.process (goods ++ bad :: rest)).1.errorsTotal = 0 ∧
    (ClientPerf.process (goods ++ bad :: rest)).1.durationTotal = 0 ∧
    (ClientPerf.process (goods ++ bad :: rest)).1.timersTotal = 0 ∧
    (ClientPerf.process (goods ++ bad :: rest)).1.wallTimeTotal = 0 := by
  have hok := ClientPerf.runLoop_ok goods ClientPerf.initState 0 hg
  have happ := ClientPerf.runLoop_append goods (bad :: rest)
    ClientPerf.initState 0 hok
  have hloop : ClientPerf.runLoop ClientPerf.initState 0 (goods ++ bad :: rest) =
      (((ClientPerf.runLoop ClientPerf.initState 0 goods).1.1,
        (ClientPerf.runLoop ClientPerf.initState 0 goods).1.2),
        some (ClientPerf.RErr.missingField "duration")) := by
    rw [happ, ClientPerf.runLoop, ClientPerf.stepRecord, hb]
  have hproc : ClientPerf.process (goods ++ bad :: rest) =
      ((ClientPerf.runLoop ClientPerf.initState 0 goods).1.1,
        some (ClientPerf.RErr.missingField "duration")) := by
    rw [ClientPerf.process, hloop]
  have htot := ClientPerf.runLoop_totals goods ClientPerf.initState 0
  rw [hproc]
  exact ⟨rfl, htot.1, htot.2.1, htot.2.2.1, htot.2.2.2.1, htot.2.2.2.2.1,
    htot.2.2.2.2.2.1, htot.2.2.2.2.2.2⟩

/-- C7 witness: the amended behavior at the concrete two-record sequence. -/
theorem c7_missing_duration_error_witness :
    ClientPerf.process ([ClientPerf.exGood] ++ ClientPerf.exBad :: []) =
      ((ClientPerf.runLoop ClientPerf.initState 0 [ClientPerf.exGood]).1.1,
        some (ClientPerf.RErr.missingField "duration")) :=
  (c7_missing_duration_error [ClientPerf.exGood] ClientPerf.exBad []
    (by simp [ClientPerf.durationOf, ClientPerf.exGood])
    (by simp [ClientPerf.durationOf, ClientPerf.exBad])).1

/-- C3 counterexample: a single consumed record (so first = last, with one
`ts`) whose `timers.dur` is 2·10⁹ ns.  The claim demands
`wall_seconds = (last.ts − first.ts)/1000 = 0` and `DurationTotal = 0`;
the source instead subtracts the extracted duration from `ts` to get
`start_ts`, giving `wall_seconds = 2` and `DurationTotal = 2·10⁹`. -/
theorem c3_counterexample :
    (ClientPerf.process [ClientPerf.exWall]).2 = none ∧
    (ClientPerf.process [ClientPerf.exWall]).1.wallTimeTotal = 2 ∧
    (ClientPerf.process [ClientPerf.exWall]).1.wallTimeTotal ≠
      (ClientPerf.exWall.tsMs - ClientPerf.exWall.tsMs) / 1000 ∧
    (ClientPerf.durationTotalStat (ClientPerf.process [ClientPerf.exWall]).1).value
      ≠ 0 := by
  refine ⟨?_, ?_, ?_, ?_⟩ <;>
    norm_num [ClientPerf.process, ClientPerf.runLoop, ClientPerf.stepRecord,
      ClientPerf.durationOf, ClientPerf.postProcess, ClientPerf.exWall,
      ClientPerf.initState, ClientPerf.durationTotalStat]

/-- C3 (amended): for every nonempty sample sequence whose records all
carry a duration, processing succeeds and `wall_seconds` equals
`(last.ts_ms − min start_ts) / 1000`, where each record's `start_ts` is its
`ts` in milliseconds minus its extracted duration divided by 1e6 and the
minimum ranges over all consumed records; the `DurationTotal` statistic
value equals `wall_seconds × 1e9` (so it is 0 exactly when the last `ts`
equals the minimal `start_ts`, not whenever first and last share a `ts`). -/
theorem c3_wall_seconds (samples : List ClientPerf.Sample)
    (h1 : samples ≠ []) (h2 : ∀ s ∈ samples, (ClientPerf.durationOf s).isSome) :
    ∃ st last, samples.getLast? = some last ∧
      ClientPerf.process samples = (st, none) ∧
      st.wallTimeTotal =
        (last.tsMs - ClientPerf.minQ (ClientPerf.startTsList 0 samples)) / 1000 ∧
      (ClientPerf.durationTotalStat st).value = st.wallTimeTotal * 1000000000 := by
  have hok := ClientPerf.runLoop_ok samples ClientPerf.initState 0 h2
  rcases hr : ClientPerf.runLoop ClientPerf.initState 0 samples with ⟨⟨st1, p⟩, oe⟩
  rw [hr] at hok
  simp only at hok
  subst hok
  have hfirst := ClientPerf.runLoop_first_none samples ClientPerf.initState 0
    rfl h1 h2
  have hlast := ClientPerf.runLoop_last samples ClientPerf.initState 0 h1 h2
  rw [hr] at hfirst hlast
  simp only at hfirst hlast
  rcases hf : st1.firstRecord with _ | fpair
  · rw [hf] at hfirst; simp at hfirst
  · rw [hf] at hfirst
    have hf2 : fpair.2 = ClientPerf.minQ (ClientPerf.startTsList 0 samples) := by
      simpa using hfirst
    rcases hlast' : samples.getLast? with _ | last
    · rcases samples with _ | ⟨s, ss⟩
      · exact absurd rfl h1
      · simp [List.getLast?_eq_none_iff] at hlast'
    · have hl : st1.lastRecord = some last := by rw [hlast, hlast']
      have hlmem : last ∈ samples := by
        rcases List.mem_getLast?_eq_getLast (Option.mem_def.mpr hlast') with ⟨hne, heq⟩
        exact heq ▸ List.getLast_mem hne
      rcases Option.isSome_iff_exists.mp (h2 last hlmem) with ⟨dl, hdl⟩
      refine ⟨(ClientPerf.postProcess st1).1, last, rfl, ?_, ?_, ?_⟩
      · have hnone : (ClientPerf.postProcess st1).2 = none := by
          unfold ClientPerf.postProcess
          rw [hf, hl]
          simp [hdl]
        simp only [ClientPerf.process, hr]
        rw [← hnone]
      · unfold ClientPerf.postProcess
        rw [hf, hl]
        simp [hdl, hf2]
      · rfl

/-- C3 witness: the amended wall-clock law at the concrete one-record
sequence. -/
theorem c3_wall_seconds_witness :
    ∃ st last, [ClientPerf.exWall].getLast? = some last ∧
      ClientPerf.process [ClientPerf.exWall] = (st, none) ∧
      st.wallTimeTotal =
        (last.tsMs - ClientPerf.minQ (ClientPerf.startTsList 0 [ClientPerf.exWall])) / 1000 ∧
      (ClientPerf.durationTotalStat st).value = st.wallTimeTotal * 1000000000 :=
  c3_wall_seconds [ClientPerf.exWall] (by simp)
    (by simp [ClientPerf.durationOf, ClientPerf.exWall])

/-- C5 counterexample: a one-metric, one-delta chunk whose payload carries
one residual `0x00` byte after the delta.  `ftdc_decoder.py`'s
`_decode_chunk` does not fail and yields both samples, ignoring the
residue — refuting the claim that the chunk decoder fails with
`TrailingBytes` and yields no samples.  (`decode.py` does raise.) -/
theorem c5_counterexample :
    FTDCLegacy.decodeChunkF [(["a"], 5)] 1 1 [3, 0] =
      ([[(["a"], 5)], [(["a"], 8)]], none) ∧
    FTDCDecode.iterChunk (.cons "a" (.leaf (.vint64 5)) .nil) 1 1 [3, 0] =
      .error .trailingBytes := by
  constructor <;> rfl

/-- C5 (amended): when bytes remain after all deltas have been consumed,
`decode.py`'s `_iter_chunk` fails with the trailing-bytes error and yields
no samples; `ftdc_decoder.py`'s `_decode_chunk` performs no trailing-bytes
check — whenever its delta unpacking succeeds it yields all
`delta_count + 1` samples and ignores any residual bytes. -/
theorem c5_trailing_bytes (refDoc : TFields FTDCDecode.BVal) (M D : Nat)
    (bs : List Nat) (ms : List FTDCDecode.Metric)
    (hms : FTDCDecode.getMetricsFromRefDoc refDoc = .ok ms)
    (hM : M = ms.length)
    (htrail : (FTDCDecode.fillMetrics ms D 0 bs).2.2 ≠ [])
    (mInit : List (List String × Int)) (hne : mInit ≠ []) (nd : Nat)
    (data : List Nat) (cols : List (List String × List Int)) (nzf : Int) (atf : Nat)
    (hfill : FTDCLegacy.lFillAll data mInit nd 0 0 = some (cols, nzf, atf)) :
    FTDCDecode.iterChunk refDoc M D bs = .error .trailingBytes ∧
    FTDCLegacy.decodeChunkF mInit mInit.length nd data =
      (mInit :: (List.range nd).map
        (fun i => cols.map fun c => (c.1, c.2.getD i 0)), none) ∧
    (FTDCLegacy.decodeChunkF mInit mInit.length nd data).1.length = nd + 1 := by
  have h1 : FTDCDecode.iterChunk refDoc M D bs = .error .trailingBytes := by
    subst hM
    rw [FTDCDecode.iterChunk, hms]
    simp [htrail]
  have h2 : FTDCLegacy.decodeChunkF mInit mInit.length nd data =
      (mInit :: (List.range nd).map
        (fun i => cols.map fun c => (c.1, c.2.getD i 0)), none) := by
    rcases mInit with _ | ⟨m0, ms'⟩
    · exact absurd rfl hne
    · rw [FTDCLegacy.decodeChunkF, if_neg (by simp), if_neg (by simp), hfill]
  exact ⟨h1, h2, by rw [h2]; simp⟩

/-- C5 witness: the amended behavior at a concrete chunk with one residual
byte. -/
theorem c5_trailing_bytes_witness :
    FTDCDecode.iterChunk (.cons "a" (.leaf (.vint64 5)) .nil) 1 1 [3, 0] =
      .error .trailingBytes ∧
    FTDCLegacy.decodeChunkF [(["a"], 5)] (List.length [(["a"], 5)]) 1 [3, 0] =
      ([(["a"], 5)] :: (List.range 1).map
        (fun i => [(["a"], [8])].map fun c => (c.1, c.2.getD i 0)), none) ∧
    (FTDCLegacy.decodeChunkF [(["a"], 5)] (List.length [(["a"], 5)]) 1 [3, 0]).1.length
      = 1 + 1 :=
  c5_trailing_bytes (.cons "a" (.leaf (.vint64 5)) .nil) 1 1 [3, 0]
    [⟨["a"], 5, .kint⟩] rfl rfl (by decide) [(["a"], 5)] (by simp) 1 [3, 0]
    [(["a"], [8])] 0 1 rfl

/-- C8 counterexample: on a chunk whose reference document has no metric
leaves, header `metric_count = 0` and `delta_count = 1`, `decode.py`'s
`_iter_chunk` does not return cleanly: `metrics[0]` raises an
`IndexError`.  The claim that the chunk decoder emits no samples and
returns without error is therefore false of that decoder. -/
theorem c8_counterexample :
    FTDCDecode.iterChunk .nil 0 1 [] = .error .indexError := by
  rfl

/-- C8 (amended): on a chunk whose reference document has zero metric
leaves and whose header declares `metric_count = 0`,
`ftdc_decoder.py`'s `_decode_chunk` emits nothing and returns without
error (even if `delta_count > 0`), but `decode.py`'s `_iter_chunk` always
raises: the trailing-bytes error when payload bytes remain, else an
`IndexError` from `metrics[0]`. -/
theorem c8_zero_metric_chunk (refDoc : TFields FTDCDecode.BVal) (D : Nat)
    (bs : List Nat)
    (hms : FTDCDecode.getMetricsFromRefDoc refDoc = .ok []) :
    FTDCDecode.iterChunk refDoc 0 D bs =
      .error (if bs = [] then .indexError else .trailingBytes) ∧
    ∀ (nm nd : Nat) (data : List Nat),
      FTDCLegacy.decodeChunkF [] nm nd data = ([], none) := by
  constructor
  · rw [FTDCDecode.iterChunk, hms]
    rcases hbs : bs with _ | ⟨b, bs'⟩
    · simp [FTDCDecode.fillMetrics]
    · simp [FTDCDecode.fillMetrics]
  · intro nm nd data
    rfl

/-- C8 witness: the amended behavior on the empty reference document with
`delta_count = 1`. -/
theorem c8_zero_metric_chunk_witness :
    FTDCDecode.iterChunk .nil 0 1 [] =
      .error (if ([] : List Nat) = [] then .indexError else .trailingBytes) ∧
    ∀ (nm nd : Nat) (data : List Nat),
      FTDCLegacy.decodeChunkF [] nm nd data = ([], none) :=
  c8_zero_metric_chunk .nil 1 [] rfl

/-- C6 counterexample: `decode.py` rejects BSON double and int32 reference
leaves — pymongo hands them to `_get_constructors_for_val` as `float` and
plain `int`, which hit the unknown-type `ValueError` — so chunk decoding
fails on such leaves rather than treating them as metric columns. -/
theorem c6_counterexample :
    FTDCDecode.getMetricsFromRefDoc (.cons "x" (.leaf (.vdouble (5/2))) .nil) =
      .error .unknownType ∧
    FTDCDecode.getMetricsFromRefDoc (.cons "x" (.leaf (.vint32 7)) .nil) =
      .error .unknownType ∧
    FTDCDecode.iterChunk (.cons "x" (.leaf (.vdouble (5/2))) .nil) 1 0 [] =
      .error .unknownType := by
  refine ⟨?_, ?_, ?_⟩ <;> rfl

/-- C6 (amended): in `ftdc_decoder.py`'s FTDC scan mode every int32, int64
or double leaf contributes a metric whose reference value is the integer
value of the leaf (the double truncated toward zero, as
`qtrunc (5/2) = 2` and `qtrunc (-(5/2)) = -2` illustrate), and
`_decode_chunk` succeeds on any such nonempty metric set; `decode.py`'s
decoder instead fails with the unknown-type error on double and int32
reference leaves, accepting only int64, datetime and bool leaves. -/
theorem c6_numeric_leaf_coercion (k : String) (v32 v64 : Int) (q : ℚ)
    (d : FTDCLegacy.BsonDoc) (r : TFields Int)
    (hd : FTDCLegacy.readFtdc d = some r)
    (ms : List (List String × Int)) (hms : ms ≠ []) (data : List Nat)
    (rest : TFields FTDCDecode.BVal) :
    FTDCLegacy.readFtdc (.cons k (.bInt32 v32) d) =
      some (.cons k (.leaf v32) r) ∧
    FTDCLegacy.readFtdc (.cons k (.bInt64 v64) d) =
      some (.cons k (.leaf v64) r) ∧
    FTDCLegacy.readFtdc (.cons k (.bDouble q) d) =
      some (.cons k (.leaf (FTDCLegacy.qtrunc q)) r) ∧
    FTDCLegacy.decodeChunkF ms ms.length 0 data = ([ms], none) ∧
    FTDCLegacy.qtrunc (5/2) = 2 ∧ FTDCLegacy.qtrunc (-(5/2)) = -2 ∧
    FTDCDecode.getMetricsFromRefDoc (.cons k (.leaf (.vint32 v32)) rest) =
      .error .unknownType ∧
    FTDCDecode.getMetricsFromRefDoc (.cons k (.leaf (.vdouble q)) rest) =
      .error .unknownType := by
  refine ⟨?_, ?_, ?_, ?_, ?_, ?_, ?_, ?_⟩
  · rw [FTDCLegacy.readFtdc, FTDCLegacy.readFtdcVal, hd]
  · rw [FTDCLegacy.readFtdc, FTDCLegacy.readFtdcVal, hd]
  · rw [FTDCLegacy.readFtdc, FTDCLegacy.readFtdcVal, hd]
  · rcases ms with _ | ⟨m0, ms'⟩
    · exact absurd rfl hms
    · rw [FTDCLegacy.decodeChunkF, if_neg (by simp), if_neg (by simp),
        FTDCLegacy.lFillAll_zero]
      rfl
  · norm_num [FTDCLegacy.qtrunc]; rfl
  · norm_num [FTDCLegacy.qtrunc]; rfl
  · rfl
  · rfl

/-- C6 witness: the amended behavior at concrete instances. -/
theorem c6_numeric_leaf_coercion_witness :
    FTDCLegacy.readFtdc (.cons "m" (.bInt32 7) .nil) =
      some (.cons "m" (.leaf 7) .nil) ∧
    FTDCLegacy.readFtdc (.cons "m" (.bInt64 7) .nil) =
      some (.cons "m" (.leaf 7) .nil) ∧
    FTDCLegacy.readFtdc (.cons "m" (.bDouble (5/2)) .nil) =
      some (.cons "m" (.leaf (FTDCLegacy.qtrunc (5/2))) .nil) ∧
    FTDCLegacy.decodeChunkF [(["m"], 7)] (List.length [(["m"], 7)]) 0 [] =
      ([[(["m"], 7)]], none) ∧
    FTDCLegacy.qtrunc (5/2) = 2 ∧ FTDCLegacy.qtrunc (-(5/2)) = -2 ∧
    FTDCDecode.getMetricsFromRefDoc (.cons "m" (.leaf (.vint32 7)) .nil) =
      .error .unknownType ∧
    FTDCDecode.getMetricsFromRefDoc (.cons "m" (.leaf (.vdouble (5/2))) .nil) =
      .error .unknownType :=
  c6_numeric_leaf_coercion "m" 7 7 (5/2) .nil .nil rfl [(["m"], 7)]
    (by simp) [] .nil

/-- C1 counterexample: a well-formed one-metric chunk over a bool reference
leaf (`false`, i.e. 0) with one delta whose value is 2.  The expanded delta
of the column is 2, so the claim demands the second sample's leaf to be
`0 + 2 = 2`; the decoder passes the delta through Python `bool()` and
yields 1. -/
theorem c1_counterexample :
    (FTDCDecode.iterChunk (.cons "b" (.leaf (.vbool false)) .nil) 1 1 [2]).map
        (List.map (fun d => d.flatten [])) =
      .ok [[(["b"], 0)], [(["b"], 1)]] ∧
    (FTDCDecode.expandStream (1 * 1) 0 [2]).1 = [2] ∧
    ((1 : Int) ≠ 0 + 2) := by
  refine ⟨rfl, rfl, by decide⟩


/-- A scanned column has as many values as deltas. -/
theorem FTDCDecode.scanVals_length (kind : FTDCDecode.MKind) (prev : Int)
    (ds : List Int) : (FTDCDecode.scanVals kind prev ds).length = ds.length := by
  induction ds generalizing prev with
  | nil => rfl
  | cons d ds ih => simp [FTDCDecode.scanVals, ih]

/-- C1 (amended): for every well-formed chunk — reference document without
duplicate keys, all leaves of supported kinds, `metric_count` equal to the
leaf count `M > 0`, and a payload whose deltas consume exactly the
remaining bytes — `decode.py`'s chunk decoder yields exactly
`delta_count + 1` sample documents in order (the reference sample first,
at index 0), and for every sample index `i` the flattened document lists
exactly the `M` reference key paths in order, each leaf equal to
`ref_value[c]` plus the sum of the first `i` expanded deltas of its column
`c` — each delta first passed through the column's delta constructor,
which is the identity for int64 and datetime columns but Python `bool()`
for bool columns — where zero-run expansion uses a single pending-zero
counter carried across column boundaries. -/
theorem c1_chunk_decode (refDoc : TFields FTDCDecode.BVal) (M D : Nat)
    (bs : List Nat) (ms : List FTDCDecode.Metric)
    (hnd : refDoc.noDupKeys = true)
    (hms : FTDCDecode.getMetricsFromRefDoc refDoc = .ok ms)
    (hM : M = ms.length) (hMpos : 0 < M)
    (hwf : (FTDCDecode.fillMetrics ms D 0 bs).2.2 = []) :
    ∃ docs, FTDCDecode.iterChunk refDoc M D bs = .ok docs ∧
      docs.length = D + 1 ∧
      ∀ i, i ≤ D → ∃ doc, docs[i]? = some doc ∧
        doc.flatten [] =
          (FTDCDecode.chunkDeltas ms D
              (FTDCDecode.expandStream (M * D) 0 bs).1).map
            (fun c => (c.1.keyPath,
              c.1.refVal +
                ((c.2.take i).map (FTDCDecode.coerceDelta c.1.kind)).sum)) := by
  subst hM
  rcases ms with _ | ⟨m0, ms'⟩
  · simp at hMpos
  · have hpaths := FTDCDecode.metricsOfLeaves_paths (refDoc.flatten []) (m0 :: ms') hms
    have hElen : (FTDCDecode.expandStream ((m0 :: ms').length * D) 0 bs).1.length
        = (m0 :: ms').length * D := FTDCDecode.expandStream_length _ _ _
    have hexp := FTDCDecode.fillMetrics_expand (m0 :: ms') D 0 bs
    have hcolsfst := FTDCDecode.chunkValsCols_fst (m0 :: ms') D
      (FTDCDecode.expandStream ((m0 :: ms').length * D) 0 bs).1
    have hcolslen : (FTDCDecode.chunkValsCols (m0 :: ms') D
        (FTDCDecode.expandStream ((m0 :: ms').length * D) 0 bs).1).length
        = (m0 :: ms').length := by
      have := congrArg List.length hcolsfst
      rwa [List.length_map] at this
    have hkp : (FTDCDecode.chunkValsCols (m0 :: ms') D
        (FTDCDecode.expandStream ((m0 :: ms').length * D) 0 bs).1).map
          (fun c => c.1.keyPath) = (refDoc.flatten []).map Prod.fst := by
      rw [show ((FTDCDecode.chunkValsCols (m0 :: ms') D
          (FTDCDecode.expandStream ((m0 :: ms').length * D) 0 bs).1).map
            (fun c => c.1.keyPath)) =
          ((FTDCDecode.chunkValsCols (m0 :: ms') D
            (FTDCDecode.expandStream ((m0 :: ms').length * D) 0 bs).1).map
              Prod.fst).map FTDCDecode.Metric.keyPath from by
        rw [List.map_map]; rfl]
      rw [hcolsfst, hpaths.1]
    have hbuild : ∀ i, FTDCDecode.buildDoc
        (FTDCDecode.chunkValsCols (m0 :: ms') D
          (FTDCDecode.expandStream ((m0 :: ms').length * D) 0 bs).1) i =
        some (FTDCDecode.prunedFill refDoc
          ((FTDCDecode.chunkValsCols (m0 :: ms') D
            (FTDCDecode.expandStream ((m0 :: ms').length * D) 0 bs).1).map
              (fun c => c.2.getD i 0))).1 := by
      intro i
      rw [FTDCDecode.buildDoc]
      have hmp := FTDCDecode.map_pair_zip
        (FTDCDecode.chunkValsCols (m0 :: ms') D
          (FTDCDecode.expandStream ((m0 :: ms').length * D) 0 bs).1)
        (fun c => c.1.keyPath) (fun c => c.2.getD i 0)
      rw [hmp, hkp]
      have hvlen : ((FTDCDecode.chunkValsCols (m0 :: ms') D
          (FTDCDecode.expandStream ((m0 :: ms').length * D) 0 bs).1).map
            (fun c => c.2.getD i 0)).length = (refDoc.flatten []).length := by
        rw [List.length_map, hcolslen]
        exact hpaths.2
      have := FTDCDecode.insertAll_flatten_zip refDoc
        ((FTDCDecode.chunkValsCols (m0 :: ms') D
          (FTDCDecode.expandStream ((m0 :: ms').length * D) 0 bs).1).map
            (fun c => c.2.getD i 0))
        .nil hnd (by intro k' hk'; simp [TFields.keys] at hk') hvlen
      rw [FTDCDecode.nil_append_t] at this
      exact this
    have hDle : D ≤ (m0 :: ms').length * D := by
      rw [List.length_cons]
      exact Nat.le_mul_of_pos_left D (Nat.succ_pos _)
    have hc0len : (m0.refVal :: FTDCDecode.scanVals m0.kind m0.refVal
        ((FTDCDecode.expandStream ((m0 :: ms').length * D) 0 bs).1.take D)).length
        = D + 1 := by
      rw [List.length_cons, FTDCDecode.scanVals_length, List.length_take, hElen,
        Nat.min_eq_left hDle]
    have hiter : FTDCDecode.iterChunk refDoc (m0 :: ms').length D bs =
        FTDCDecode.buildAll
          (FTDCDecode.chunkValsCols (m0 :: ms') D
            (FTDCDecode.expandStream ((m0 :: ms').length * D) 0 bs).1)
          (List.range (D + 1)) := by
      rw [FTDCDecode.iterChunk, hms]
      dsimp only
      rw [if_neg (fun h => h rfl)]
      rw [hexp] at hwf ⊢
      dsimp only at hwf ⊢
      rw [if_neg (fun h => h hwf)]
      rw [FTDCDecode.chunkValsCols]
      dsimp only
      rw [hc0len]
    refine ⟨(List.range (D + 1)).map (fun i =>
        (FTDCDecode.prunedFill refDoc
          ((FTDCDecode.chunkValsCols (m0 :: ms') D
            (FTDCDecode.expandStream ((m0 :: ms').length * D) 0 bs).1).map
              (fun c => c.2.getD i 0))).1), ?_, ?_, ?_⟩
    · rw [hiter]
      exact FTDCDecode.buildAll_ok _ _ _ (fun i _ => hbuild i)
    · rw [List.length_map, List.length_range]
    · intro i hi
      refine ⟨(FTDCDecode.prunedFill refDoc
          ((FTDCDecode.chunkValsCols (m0 :: ms') D
            (FTDCDecode.expandStream ((m0 :: ms').length * D) 0 bs).1).map
              (fun c => c.2.getD i 0))).1, ?_, ?_⟩
      · rw [List.getElem?_map, List.getElem?_range (show i < D + 1 by omega)]
        rfl
      · have hvlen : ((FTDCDecode.chunkValsCols (m0 :: ms') D
            (FTDCDecode.expandStream ((m0 :: ms').length * D) 0 bs).1).map
              (fun c => c.2.getD i 0)).length = (refDoc.flatten []).length := by
          rw [List.length_map, hcolslen]
          exact hpaths.2
        rw [FTDCDecode.prunedFill_flatten refDoc _ hvlen]
        rw [← hkp, ← FTDCDecode.map_pair_zip]
        exact FTDCDecode.chunk_value_delta (m0 :: ms') D _ i hElen hi

/-- C1 witness: the amended reconstruction at a concrete one-metric chunk
with one delta of value 3 over reference value 5. -/
theorem c1_chunk_decode_witness :
    ∃ docs, FTDCDecode.iterChunk (.cons "a" (.leaf (.vint64 5)) .nil) 1 1 [3]
        = .ok docs ∧
      docs.length = 1 + 1 ∧
      ∀ i, i ≤ 1 → ∃ doc, docs[i]? = some doc ∧
        doc.flatten [] =
          (FTDCDecode.chunkDeltas [⟨["a"], 5, .kint⟩] 1
              (FTDCDecode.expandStream (1 * 1) 0 [3]).1).map
            (fun c => (c.1.keyPath,
              c.1.refVal +
                ((c.2.take i).map (FTDCDecode.coerceDelta c.1.kind)).sum)) :=
  c1_chunk_decode (.cons "a" (.leaf (.vint64 5)) .nil) 1 1 [3]
    [⟨["a"], 5, .kint⟩] rfl rfl rfl (by decide) rfl
